import Mathlib

/-!
Verification of the generalized open-addressing hash table in `src/hashmap.h`
(libkiss).  The C engine `generalmap` backs four container flavours
(hashmap, intmap, hashset, intset).  We embed the engine shallowly:

* buffers become Lean `List`s (`calloc` zero-fill becomes `List.replicate`),
* C `int` arithmetic on sizes/counters is nonnegative throughout the
  engine, so sizes and counters are `Nat`; `pow2ize`, whose behaviour on
  zero/negative input matters, is modelled on `Int` with the two's
  complement bitwise operations (`Int.lor`, `Int.shiftRight` is the
  arithmetic shift, exactly the common C behaviour of `>>` on signed int),
* the per-call function-pointer parameters (hash function, comparator,
  key duplication, value flag) become a configuration record `MapCfg`;
  every C call site passes them consistently per facade, and a comparator
  (`strcmp`) decides content equality, which we represent by `DecidableEq`,
* `void*` values become `Option V` (`none` is the C null pointer),
* the key stored in an empty (calloc-zeroed) slot is a distinguished
  element `k0` (the null string / the integer 0).

Fallible behaviour (allocation failure) and pointer identity are outside
the claims considered here.
-/

/-! ### pow2ize (src/hashmap.h lines 206-218)

```c
static inline int pow2ize (int x) {
    assert(sizeof(x) <= 8);
    x--;
    x |= x >> 1;
    x |= x >> 2;
    x |= x >> 4;
    x |= x >> 8;
    x |= x >> 16;
    x |= (x >> 16) >> 16;
    return x+1;
}
```
`>>` on a negative signed int is the arithmetic shift on every platform this
targets, which is exactly `Int.shiftRight`. -/
def pow2ize (x : Int) : Int :=
  let x := x - 1
  let x := Int.lor x (Int.shiftRight x 1)
  let x := Int.lor x (Int.shiftRight x 2)
  let x := Int.lor x (Int.shiftRight x 4)
  let x := Int.lor x (Int.shiftRight x 8)
  let x := Int.lor x (Int.shiftRight x 16)
  let x := Int.lor x (Int.shiftRight (Int.shiftRight x 16) 16)
  x + 1

/-- The bit-smearing cascade of `pow2ize`, on the nonnegative range
(where the C `int` and `ℕ` agree). -/
def smear (y : Nat) : Nat :=
  let y := y ||| (y >>> 1)
  let y := y ||| (y >>> 2)
  let y := y ||| (y >>> 4)
  let y := y ||| (y >>> 8)
  let y := y ||| (y >>> 16)
  let y := y ||| ((y >>> 16) >>> 16)
  y

theorem pow2ize_nonneg_eq (x : Int) (hx : 1 ≤ x) :
    pow2ize x = ((smear (x.toNat - 1) : Nat) : Int) + 1 := by
  obtain ⟨n, rfl⟩ : ∃ n : Nat, x = (n : Int) :=
    ⟨x.toNat, (Int.toNat_of_nonneg (by omega)).symm⟩
  have h1 : (n : Int) - 1 = ((n - 1 : Nat) : Int) := by
    have : 1 ≤ n := by exact_mod_cast hx
    omega
  have hlor : ∀ a b : Nat, Int.lor (a : Int) (b : Int) = ((a ||| b : Nat) : Int) :=
    fun a b => rfl
  have hshr : ∀ (a : Nat) (k : Nat),
      Int.shiftRight (a : Int) k = ((a >>> k : Nat) : Int) := fun a k => rfl
  simp only [pow2ize, smear, h1, hlor, hshr, Int.toNat_ofNat, Int.toNat_natCast]

/-- An all-ones word absorbs its own right shifts: `(2^k - 1) ||| ((2^k - 1) >>> s)
is `2^k - 1`. -/
theorem lor_shiftRight_two_pow_sub_one (k s : Nat) :
    (2 ^ k - 1) ||| ((2 ^ k - 1) >>> s) = 2 ^ k - 1 := by
  apply Nat.eq_of_testBit_eq
  intro i
  rw [Nat.testBit_lor, Nat.testBit_shiftRight]
  simp only [Nat.testBit_two_pow_sub_one]
  by_cases hi : i < k
  · simp [hi]
  · have hsi : ¬ (s + i < k) := by omega
    simp [hi, hsi]

/-- `smear` fixes an all-ones word. -/
theorem smear_two_pow_sub_one (k : Nat) : smear (2 ^ k - 1) = 2 ^ k - 1 := by
  simp only [smear, lor_shiftRight_two_pow_sub_one]
  rw [← Nat.shiftRight_add, lor_shiftRight_two_pow_sub_one]

/-- Each cascade step `a := a ||| (a >>> k)` widens the window of positions a
set bit is smeared over, from `D` to `D + k` (provided `k ≤ D`). -/
theorem smear_step (y a D k : Nat) (hk : k ≤ D)
    (ha : ∀ j, a.testBit j = true ↔ ∃ d, d < D ∧ y.testBit (j + d) = true) :
    ∀ j, (a ||| (a >>> k)).testBit j = true ↔
      ∃ d, d < D + k ∧ y.testBit (j + d) = true := by
  intro j
  rw [Nat.testBit_lor, Nat.testBit_shiftRight, Bool.or_eq_true, ha, ha]
  constructor
  · rintro (⟨d, hd, hbit⟩ | ⟨d, hd, hbit⟩)
    · exact ⟨d, by omega, hbit⟩
    · refine ⟨k + d, by omega, ?_⟩
      have h : j + (k + d) = k + j + d := by omega
      rw [h]; exact hbit
  · rintro ⟨d, hd, hbit⟩
    by_cases hdD : d < D
    · exact Or.inl ⟨d, hdD, hbit⟩
    · refine Or.inr ⟨d - k, by omega, ?_⟩
      have h : k + j + (d - k) = j + d := by omega
      rw [h]; exact hbit

/-- The full cascade smears every set bit of `y` across the 64 positions
below it. -/
theorem smear_testBit (y j : Nat) :
    (smear y).testBit j = true ↔ ∃ d, d < 64 ∧ y.testBit (j + d) = true := by
  have h0 : ∀ j, y.testBit j = true ↔ ∃ d, d < 1 ∧ y.testBit (j + d) = true := by
    intro j
    constructor
    · intro h; exact ⟨0, by omega, by simpa using h⟩
    · rintro ⟨d, hd, h⟩
      have hd0 : d = 0 := by omega
      subst hd0; simpa using h
  have h1 := smear_step y y 1 1 (by omega) h0
  have h2 := smear_step y _ 2 2 (by omega) h1
  have h4 := smear_step y _ 4 4 (by omega) h2
  have h8 := smear_step y _ 8 8 (by omega) h4
  have h16 := smear_step y _ 16 16 (by omega) h8
  have h32 := smear_step y _ 32 32 (by omega) h16
  have hsh : ∀ x : Nat, x >>> 16 >>> 16 = x >>> 32 :=
    fun x => (Nat.shiftRight_add x 16 16).symm
  simp only [smear, hsh]
  exact h32 j

/-- For machine-range input, `smear` turns `y` into the all-ones word of
`y`'s bit length. -/
theorem smear_eq_two_pow_sub_one {y : Nat} (hy : y < 2 ^ 64) :
    smear y = 2 ^ y.size - 1 := by
  rcases Nat.eq_zero_or_pos y with rfl | hpos
  · simp [smear, Nat.size_zero]
  · have hszpos : 0 < y.size := Nat.size_pos.mpr hpos
    have hsz64 : y.size ≤ 64 := Nat.size_le.mpr hy
    apply Nat.eq_of_testBit_eq
    intro i
    rw [Nat.testBit_two_pow_sub_one]
    by_cases hi : i < y.size
    · have htop : y.testBit (y.size - 1) = true := by
        rw [Nat.testBit_to_div_mod]
        have hlo : 2 ^ (y.size - 1) ≤ y := Nat.lt_size.mp (by omega)
        have hhi : y < 2 ^ (y.size - 1 + 1) := by
          have h := Nat.lt_size_self y
          have he : y.size - 1 + 1 = y.size := by omega
          rwa [he]
        have hdiv : y / 2 ^ (y.size - 1) = 1 := by
          apply Nat.div_eq_of_lt_le (by simpa using hlo)
          rw [pow_succ] at hhi; omega
        simp [hdiv]
      have hset : (smear y).testBit i = true := by
        refine (smear_testBit y i).mpr ⟨y.size - 1 - i, by omega, ?_⟩
        have h : i + (y.size - 1 - i) = y.size - 1 := by omega
        rw [h]; exact htop
      simp [hset, hi]
    · have hclear : (smear y).testBit i = false := by
        rcases hb : (smear y).testBit i with _ | _
        · rfl
        · exfalso
          obtain ⟨d, _, hbit⟩ := (smear_testBit y i).mp hb
          have hlt : y < 2 ^ (i + d) := by
            calc y < 2 ^ y.size := Nat.lt_size_self y
            _ ≤ 2 ^ (i + d) := Nat.pow_le_pow_right (by omega) (by omega)
          rw [Nat.testBit_lt_two_pow hlt] at hbit
          exact Bool.false_ne_true hbit
      simp [hclear, hi]

/-- On `1 ≤ n ≤ 2 ^ 64`, `pow2ize` computes `2 ^ (n-1).size`, which the
following lemmas show is the least power of two that is at least `n`. -/
theorem pow2ize_natCast (n : Nat) (h1 : 1 ≤ n) (h2 : n ≤ 2 ^ 64) :
    pow2ize (n : Int) = ((2 ^ (n - 1).size : Nat) : Int) := by
  rw [pow2ize_nonneg_eq _ (by exact_mod_cast h1)]
  have ht : (n : Int).toNat = n := Int.toNat_natCast n
  rw [ht, smear_eq_two_pow_sub_one (show n - 1 < 2 ^ 64 by omega)]
  have h3 : 1 ≤ 2 ^ (n - 1).size := Nat.one_le_two_pow
  rw [Nat.cast_sub h3]
  push_cast
  ring

theorem le_two_pow_size_sub_one (n : Nat) : n ≤ 2 ^ (n - 1).size := by
  have := Nat.lt_size_self (n - 1)
  omega

theorem two_pow_size_sub_one_le {n j : Nat} (h : n ≤ 2 ^ j) :
    2 ^ (n - 1).size ≤ 2 ^ j := by
  have hj : 1 ≤ 2 ^ j := Nat.one_le_two_pow
  have hs : (n - 1).size ≤ j := Nat.size_le.mpr (by omega)
  exact Nat.pow_le_pow_right (by omega) hs

/-- `pow2ize` fixes every power of two (for any exponent - this part of the
analysis does not need a machine-width bound). -/
theorem pow2ize_two_pow (k : Nat) : pow2ize ((2 ^ k : Nat) : Int) = ((2 ^ k : Nat) : Int) := by
  rw [pow2ize_nonneg_eq _ (by exact_mod_cast Nat.one_le_two_pow)]
  have h2 : ((2 ^ k : Nat) : Int).toNat = 2 ^ k := by exact_mod_cast rfl
  rw [h2, smear_two_pow_sub_one]
  have h1 : 1 ≤ 2 ^ k := Nat.one_le_two_pow
  omega

/-! ### The generalmap data model (src/hashmap.h lines 39-50)

```c
typedef struct generalmap {
    int size, elements;
    union { const char** keysStr; char** keysStrMutable; intptr_t* keysInt; };
    int* hashes;
    void** values;
} generalmap;
```
The key union is modelled by a type parameter `K`; `void*` values by
`Option V` (`none` = null). -/
structure generalmap (K V : Type) where
  size : Nat
  elements : Nat
  keysStr : List K
  hashes : List Nat
  values : List (Option V)
  deriving DecidableEq

/-- The per-facade parameters that the C code passes to every engine call
(`generalmapHash hashf, generalmapCmp cmp, bool values/hashes`), plus the
two constants that are implicit in the C:

* `k0` is the key stored in a calloc-zeroed slot (`NULL` / `(intptr_t) 0`);
  it is what `generalmapMerge`'s `src->keysInt[index] == 0` test compares
  against.
* `vtrue` is the non-null sentinel `(void*) true` stored for sets.
* `useCmp` records whether a comparator is configured (`cmp != 0`); the
  comparator itself is `strcmp`-style content equality, represented by
  the `DecidableEq K` instance.
* `hasValues` is the `bool values` flag.

Every facade passes one fixed, consistent bundle, which is why a single
record replaces the repeated C arguments. -/
structure MapCfg (K V : Type) where
  k0 : K
  vtrue : V
  hashf : K → Nat → Nat
  useCmp : Bool
  hasValues : Bool

variable {K V : Type} [DecidableEq K]

/-- `mapNull` (src/hashmap.h lines 125-127): `map.elements == 0`. -/
def mapNull (m : generalmap K V) : Bool :=
  m.elements == 0

/-- A slot is occupied iff its `values` entry is non-null (spec section 3;
`generalmapFind`/`generalmapAdd` test `map->values[index] == 0`). -/
def occupied (m : generalmap K V) (index : Nat) : Bool :=
  (m.values.getD index none).isSome

/-- `generalmapInit` (src/hashmap.h lines 220-231): round the size up with
`pow2ize` and allocate zero-filled buffers (`calloc`); the `hashes` buffer
only when a comparator will be used.  The C `int size` argument is kept as
`Int` because `pow2ize`'s behaviour at nonpositive input matters; the
resulting size is nonnegative and stored as `Nat`. -/
def generalmapInit (cfg : MapCfg K V) (size : Int) : generalmap K V :=
  let size := (pow2ize size).toNat
  { size := size
    elements := 0
    keysStr := List.replicate size cfg.k0
    hashes := if cfg.useCmp then List.replicate size 0 else []
    values := List.replicate size none }

/-- `generalmapFree` (src/hashmap.h lines 233-245): the three buffers are
freed and their pointers nulled (modelled as the buffers becoming empty);
`size` and `elements` are left as they are.  The `hashes : bool` parameter
of the C function only decides whether `free` is called on the hashes
pointer - the field is nulled either way - so it does not affect the
resulting state. -/
def generalmapFree (m : generalmap K V) (hashes : Bool) : generalmap K V :=
  let _ := hashes
  { m with keysStr := [], hashes := [], values := [] }

/-- `generalmapIsMatch` (src/hashmap.h lines 267-274):
with a comparator, the cached hash must equal the probe hash and the
comparator must report content equality (`!cmp(...)`); without one, the
stored key must equal the probed key outright.

Fidelity caveat: at an *empty* slot the stored key is the null `k0`.  With
a comparator the C would then call `cmp(NULL, key)` - undefined behavior,
reachable from `Map`/`Test` on an absent key whose probe hash is 0,
because the empty slot's calloc-zeroed cached hash satisfies the hash
conjunct - whereas this model totalizes that corner to
`decide (k0 = key)`.  Lookup-result theorems are therefore scoped to
comparator-free configurations (`useCmp = false`, the integer facades; see
`C6_pure_lookup`).  Inside `Find` the C short-circuits on
`values[index] == 0` before the match test, and `Add` evaluates the match
only at occupied slots, so the match test never sees a null stored key
there and those operations are modelled faithfully for every
configuration. -/
def generalmapIsMatch (cfg : MapCfg K V) (m : generalmap K V) (index : Nat)
    (key : K) (hash : Nat) : Bool :=
  if cfg.useCmp then
    decide (m.hashes.getD index 0 = hash) && decide (m.keysStr.getD index cfg.k0 = key)
  else
    decide (m.keysStr.getD index cfg.k0 = key)

/-- The probe order of `generalmapFind`: first from the start slot up to the
end of the buffer, then from index 0 back up to the start slot. -/
def probeSeq (size hash : Nat) : List Nat :=
  List.range' hash (size - hash) ++ List.range hash

/-- The loop-exit test of `generalmapFind`:
`map->values[index] == 0 || generalmapIsMatch(map, index, key, hash, cmp)`. -/
def stopCond (cfg : MapCfg K V) (m : generalmap K V) (key : K) (hash : Nat)
    (index : Nat) : Bool :=
  (m.values.getD index none).isNone || generalmapIsMatch cfg m index key hash

/-- `generalmapFind` (src/hashmap.h lines 276-292): return the first probe
position that is empty or matches; after a full fruitless sweep, return the
start slot `hash`. -/
def generalmapFind (cfg : MapCfg K V) (m : generalmap K V) (key : K)
    (hash : Nat) : Nat :=
  match (probeSeq m.size hash).find? (stopCond cfg m key hash) with
  | some index => index
  | none => hash

/-- The body of `generalmapAdd` after the growth check (src/hashmap.h lines
305-327): find the slot; if it is empty, store the key (and the cached hash
when a comparator is used) and bump `elements`; either way store the value
(or the set sentinel), and report whether the key was already present. -/
def generalmapAddNoGrow (cfg : MapCfg K V) (m : generalmap K V) (key : K)
    (value : Option V) : Bool × generalmap K V :=
  let hash := cfg.hashf key m.size
  let index := generalmapFind cfg m key hash
  let stored := if cfg.hasValues then value else some cfg.vtrue
  if (m.values.getD index none).isNone then
    (false,
      { m with
        keysStr := m.keysStr.set index key
        elements := m.elements + 1
        hashes := if cfg.useCmp then m.hashes.set index hash else m.hashes
        values := m.values.set index stored })
  else
    (true, { m with values := m.values.set index stored })

/-- The loop body of `generalmapMerge` (src/hashmap.h lines 332-342),
parameterized by the add operation used, so that the growth path (which
must be defined before `generalmapAdd`) and the public merge share the
same literal translation: skip slots whose key is zero, optionally
duplicate the key, and re-add it with the source's value (or null for
sets). -/
def mergeStep (cfg : MapCfg K V) (src : generalmap K V) (dup : Option (K → K))
    (add : generalmap K V → K → Option V → Bool × generalmap K V)
    (dest : generalmap K V) (index : Nat) : generalmap K V :=
  if decide (src.keysStr.getD index cfg.k0 = cfg.k0) then dest
  else
    let key := src.keysStr.getD index cfg.k0
    let key := (dup.getD id) key
    (add dest key (if cfg.hasValues then src.values.getD index none else none)).2

/-- The growth path of `generalmapAdd` (src/hashmap.h lines 298-303): build
a fresh table of twice the size and merge the old table into it.  The C
calls `generalmapMerge`, whose `generalmapAdd` calls can themselves check
for growth; `generalmapGrow_eq_generalmapMerge` below proves that during
this particular merge the growth check never fires, so using the no-growth
add here is faithful. -/
def generalmapGrow (cfg : MapCfg K V) (m : generalmap K V) : generalmap K V :=
  (List.range m.size).foldl
    (mergeStep cfg m none (generalmapAddNoGrow cfg))
    (generalmapInit cfg (2 * (m.size : Int)))

/-- `generalmapAdd` (src/hashmap.h lines 294-328): grow when half full
(`map->elements*2 + 1 >= map->size`), then insert. -/
def generalmapAdd (cfg : MapCfg K V) (m : generalmap K V) (key : K)
    (value : Option V) : Bool × generalmap K V :=
  let m := if m.size ≤ 2 * m.elements + 1 then generalmapGrow cfg m else m
  generalmapAddNoGrow cfg m key value

/-- `generalmapMerge` (src/hashmap.h lines 330-343): re-add every slot of
`src` with a nonzero key into `dest` via the full `generalmapAdd`. -/
def generalmapMerge (cfg : MapCfg K V) (dest src : generalmap K V)
    (dup : Option (K → K)) : generalmap K V :=
  (List.range src.size).foldl (mergeStep cfg src dup (generalmapAdd cfg)) dest

/-- `generalmapMap` (src/hashmap.h lines 345-349): pure lookup; returns the
stored value at the found slot when it matches, null otherwise. -/
def generalmapMap (cfg : MapCfg K V) (m : generalmap K V) (key : K) : Option V :=
  let hash := cfg.hashf key m.size
  let index := generalmapFind cfg m key hash
  if generalmapIsMatch cfg m index key hash then m.values.getD index none else none

/-- `generalmapTest` (src/hashmap.h lines 351-355): pure membership test. -/
def generalmapTest (cfg : MapCfg K V) (m : generalmap K V) (key : K) : Bool :=
  let hash := cfg.hashf key m.size
  let index := generalmapFind cfg m key hash
  generalmapIsMatch cfg m index key hash

/-! ### The integer facades (src/hashmap.h lines 177-189 and 387-463)

`hashint` left-shifts a signed `intptr_t`, which is undefined behaviour in C
for negative values, so the model covers the nonnegative key range, where
the C shifts are exact multiplications/divisions and `ℕ`'s bitwise
operators coincide with the machine's. -/
def hashint (element : Nat) (mapsize : Nat) : Nat :=
  let hash := element
  let hash := hash + (hash <<< 10)
  let hash := hash ^^^ (hash >>> 6)
  let hash := hash + (hash <<< 3)
  let hash := hash ^^^ (hash >>> 11)
  let hash := hash + (hash <<< 15)
  let mask := mapsize - 1
  hash &&& mask

/-- The parameter bundle of the `intmap` facade (src/hashmap.h lines
389-411): integer keys, no comparator, real values.  `vtrue` is never
stored because `hasValues` is true; `1` stands for the C `(void*) true`. -/
def intmapCfg (V : Type) (vtrue : V) : MapCfg Nat V :=
  { k0 := 0, vtrue := vtrue, hashf := hashint, useCmp := false, hasValues := true }

/-- The parameter bundle of the `intset` facade (src/hashmap.h lines
443-463): integer keys, no comparator, presence only. -/
def intsetCfg : MapCfg Nat Unit :=
  { k0 := 0, vtrue := (), hashf := hashint, useCmp := false, hasValues := false }

/-- `intmapInit` (src/hashmap.h lines 389-391). -/
def intmapInit (V : Type) (vtrue : V) (size : Int) : generalmap Nat V :=
  generalmapInit (intmapCfg V vtrue) size

/-- `intmapAdd` (src/hashmap.h lines 401-403). -/
def intmapAdd {V : Type} (vtrue : V) (m : generalmap Nat V) (element : Nat)
    (value : Option V) : Bool × generalmap Nat V :=
  generalmapAdd (intmapCfg V vtrue) m element value

/-- `intmapMap` (src/hashmap.h lines 409-411). -/
def intmapMap {V : Type} (vtrue : V) (m : generalmap Nat V) (element : Nat) :
    Option V :=
  generalmapMap (intmapCfg V vtrue) m element

/-- `intsetInit` (src/hashmap.h lines 445-447). -/
def intsetInit (size : Int) : generalmap Nat Unit :=
  generalmapInit intsetCfg size

/-- `intsetAdd` (src/hashmap.h lines 453-455). -/
def intsetAdd (s : generalmap Nat Unit) (element : Nat) :
    Bool × generalmap Nat Unit :=
  generalmapAdd intsetCfg s element none

/-- `intsetTest` (src/hashmap.h lines 461-463). -/
def intsetTest (s : generalmap Nat Unit) (element : Nat) : Bool :=
  generalmapTest intsetCfg s element

/-! ### List helpers for the probing proofs -/

theorem getD_set_self {α : Type _} (l : List α) (i : Nat) (a d : α)
    (h : i < l.length) : (l.set i a).getD i d = a := by
  rw [List.getD_eq_getElem?_getD, List.getElem?_set_self h]
  rfl

theorem getD_set_ne {α : Type _} (l : List α) {i j : Nat} (a d : α)
    (h : i ≠ j) : (l.set i a).getD j d = l.getD j d := by
  rw [List.getD_eq_getElem?_getD, List.getElem?_set_ne h, ← List.getD_eq_getElem?_getD]

theorem getD_replicate_self {α : Type _} {n i : Nat} {a : α} :
    (List.replicate n a).getD i a = a := by
  by_cases h : i < n
  · rw [List.getD_eq_getElem (List.replicate n a) a (by simpa using h)]
    exact List.getElem_replicate a _
  · rw [List.getD_eq_getElem?_getD, List.getElem?_eq_none (by simpa using h)]
    rfl

theorem find?_append_first {α : Type _} {p : α → Bool} {x : α} (l₁ l₂ : List α)
    (h₁ : ∀ y ∈ l₁, ¬ p y = true) (hx : p x = true) :
    (l₁ ++ x :: l₂).find? p = some x := by
  induction l₁ with
  | nil => simpa using List.find?_cons_of_pos _ hx
  | cons a t ih =>
    rw [List.cons_append, List.find?_cons_of_neg _ (h₁ a (by simp))]
    exact ih fun y hy => h₁ y (by simp [hy])

theorem find?_eq_some_split {α : Type _} {p : α → Bool} {x : α} {l : List α}
    (h : l.find? p = some x) :
    ∃ l₁ l₂, l = l₁ ++ x :: l₂ ∧ ∀ y ∈ l₁, ¬ p y = true := by
  induction l with
  | nil => simp at h
  | cons a t ih =>
    by_cases ha : p a = true
    · rw [List.find?_cons_of_pos _ ha] at h
      obtain rfl : a = x := by simpa using h
      exact ⟨[], t, rfl, by simp⟩
    · rw [List.find?_cons_of_neg _ ha] at h
      obtain ⟨l₁, l₂, rfl, hl₁⟩ := ih h
      refine ⟨a :: l₁, l₂, rfl, ?_⟩
      intro y hy
      rcases List.mem_cons.mp hy with rfl | hy'
      · exact ha
      · exact hl₁ y hy'

theorem find?_congr_on {α : Type _} {p q : α → Bool} (l : List α)
    (h : ∀ x ∈ l, p x = q x) : l.find? p = l.find? q := by
  induction l with
  | nil => rfl
  | cons a t ih =>
    have ha := h a (by simp)
    by_cases hpa : p a = true
    · rw [List.find?_cons_of_pos _ hpa, List.find?_cons_of_pos _ (ha ▸ hpa)]
    · rw [List.find?_cons_of_neg _ hpa, List.find?_cons_of_neg _ (ha ▸ hpa)]
      exact ih fun x hx => h x (by simp [hx])

theorem takeWhile_bne_append {α : Type _} [DecidableEq α] {x : α}
    (l₁ l₂ : List α) (h : ∀ y ∈ l₁, y ≠ x) :
    (l₁ ++ x :: l₂).takeWhile (fun y => y != x) = l₁ := by
  induction l₁ with
  | nil => simp [List.takeWhile_cons]
  | cons a t ih =>
    rw [List.cons_append, List.takeWhile_cons]
    have ha : (a != x) = true := bne_iff_ne.mpr (h a (by simp))
    rw [if_pos ha]
    exact congrArg (a :: ·) (ih fun y hy => h y (by simp [hy]))

theorem mem_split_takeWhile_bne {α : Type _} [DecidableEq α] {x : α} {l : List α}
    (h : x ∈ l) :
    ∃ l₂, l = l.takeWhile (fun y => y != x) ++ x :: l₂ := by
  induction l with
  | nil => cases h
  | cons a t ih =>
    by_cases hax : a = x
    · subst hax
      exact ⟨t, by simp [List.takeWhile_cons]⟩
    · have hx : x ∈ t := by
        rcases List.mem_cons.mp h with rfl | hx
        · exact absurd rfl hax
        · exact hx
      obtain ⟨l₂, hl⟩ := ih hx
      refine ⟨l₂, ?_⟩
      rw [List.takeWhile_cons, if_pos (bne_iff_ne.mpr hax)]
      exact congrArg (a :: ·) hl

theorem countP_range_getD {α : Type _} (l : List α) (p : α → Bool) (d : α) :
    (List.range l.length).countP (fun i => p (l.getD i d)) = l.countP p := by
  induction l with
  | nil => simp
  | cons a t ih =>
    rw [show (a :: t).length = t.length + 1 from rfl, List.range_succ_eq_map,
      List.countP_cons, List.countP_map]
    rw [List.countP_cons]
    have h1 : List.countP ((fun i => p ((a :: t).getD i d)) ∘ Nat.succ) (List.range t.length)
        = List.countP (fun i => p (t.getD i d)) (List.range t.length) :=
      List.countP_congr fun x _ => by rfl
    rw [h1, ih]
    rfl

/-! ### probeSeq facts -/

theorem probeSeq_perm_range {size hash : Nat} (h : hash ≤ size) :
    (probeSeq size hash).Perm (List.range size) := by
  have hsplit : List.range' 0 hash ++ List.range' hash (size - hash)
      = List.range' 0 size := by
    have happ := List.range'_append 0 hash (size - hash) 1
    simp only [Nat.one_mul, Nat.zero_add] at happ
    rw [happ, Nat.sub_add_cancel h]
  unfold probeSeq
  rw [List.range_eq_range', List.range_eq_range', ← hsplit]
  exact List.perm_append_comm

theorem mem_probeSeq_lt {size hash i : Nat} (h : hash ≤ size)
    (hi : i ∈ probeSeq size hash) : i < size := by
  have := (probeSeq_perm_range h).mem_iff.mp hi
  simpa using this

theorem lt_mem_probeSeq {size hash i : Nat} (h : hash ≤ size) (hi : i < size) :
    i ∈ probeSeq size hash := by
  exact (probeSeq_perm_range h).mem_iff.mpr (by simpa using hi)

theorem probeSeq_nodup {size hash : Nat} (h : hash ≤ size) :
    (probeSeq size hash).Nodup :=
  (probeSeq_perm_range h).nodup_iff.mpr (List.nodup_range size)

/-! ### The reachable-state invariant of a generalmap

`wf` collects the facts that hold for every table produced by `Init` and
preserved by `Add`/`Merge` with nonzero keys and non-null values: buffer
lengths agree with `size`; a slot is occupied (non-null value) exactly when
it holds a nonzero key; occupied keys are pairwise distinct; with a
comparator, the cached hash of an occupied slot is the hash of its key at
the current size; `elements` counts the occupied slots; and every occupied
slot is reachable from its key's start slot by probing over occupied
slots only (the fundamental open-addressing invariant). -/
def wf (cfg : MapCfg K V) (m : generalmap K V) : Prop :=
  0 < m.size ∧
  m.keysStr.length = m.size ∧
  m.values.length = m.size ∧
  (cfg.useCmp = true → m.hashes.length = m.size) ∧
  (∀ i, i < m.size → (occupied m i = true ↔ m.keysStr.getD i cfg.k0 ≠ cfg.k0)) ∧
  (∀ i, i < m.size → ∀ j, j < m.size → occupied m i = true → occupied m j = true →
    m.keysStr.getD i cfg.k0 = m.keysStr.getD j cfg.k0 → i = j) ∧
  (cfg.useCmp = true → ∀ i, i < m.size → occupied m i = true →
    m.hashes.getD i 0 = cfg.hashf (m.keysStr.getD i cfg.k0) m.size) ∧
  m.elements = m.values.countP (fun v => v.isSome) ∧
  (∀ j, j < m.size → occupied m j = true →
    ∀ i ∈ (probeSeq m.size (cfg.hashf (m.keysStr.getD j cfg.k0) m.size)).takeWhile
      (fun i => i != j), occupied m i = true) ∧
  (cfg.hasValues = false → ∀ i, i < m.size → occupied m i = true →
    m.values.getD i none = some cfg.vtrue)

instance wfDecidable [DecidableEq V] (cfg : MapCfg K V) (m : generalmap K V) :
    Decidable (wf cfg m) := by
  unfold wf
  refine @instDecidableAnd _ _ inferInstance ?_
  refine @instDecidableAnd _ _ inferInstance ?_
  refine @instDecidableAnd _ _ inferInstance ?_
  refine @instDecidableAnd _ _ inferInstance ?_
  refine @instDecidableAnd _ _ inferInstance ?_
  refine @instDecidableAnd _ _ inferInstance ?_
  refine @instDecidableAnd _ _ inferInstance ?_
  refine @instDecidableAnd _ _ inferInstance ?_
  refine @instDecidableAnd _ _ inferInstance ?_
  infer_instance

/-- The abstract association realized by a table: the value of the first
slot (in storage order) that is occupied and holds `k`.  Under `wf` such a
slot is unique. -/
def contents (cfg : MapCfg K V) (m : generalmap K V) (k : K) : Option V :=
  match (List.range m.size).find?
      (fun i => occupied m i && decide (m.keysStr.getD i cfg.k0 = k)) with
  | some i => m.values.getD i none
  | none => none

theorem wf_elements_le_size {cfg : MapCfg K V} {m : generalmap K V}
    (hwf : wf cfg m) : m.elements ≤ m.size := by
  obtain ⟨-, -, hvl, -, -, -, -, hcnt, -, -⟩ := hwf
  rw [hcnt, ← hvl]
  exact List.countP_le_length _

/-- On occupied slots the match test is simply key equality: without a
comparator by definition, with one because the cached hash of the slot's
key at the current size is exactly the probe hash whenever the keys agree. -/
theorem isMatch_occupied_eq {cfg : MapCfg K V} {m : generalmap K V}
    (hwf : wf cfg m) {i : Nat} (hi : i < m.size) (hocc : occupied m i = true)
    (k : K) :
    generalmapIsMatch cfg m i k (cfg.hashf k m.size)
      = decide (m.keysStr.getD i cfg.k0 = k) := by
  obtain ⟨-, -, -, -, -, -, hcache, -, -, -⟩ := hwf
  unfold generalmapIsMatch
  by_cases hcmp : cfg.useCmp = true
  · rw [if_pos hcmp]
    by_cases hk : m.keysStr.getD i cfg.k0 = k
    · rw [hcache hcmp i hi hocc, hk]
      simp
    · rw [decide_eq_false hk, Bool.and_false]
  · rw [if_neg hcmp]

/-- On an unoccupied slot the match test fails for every nonzero key,
because the slot's key field is the zero key. -/
theorem isMatch_unoccupied_eq_false {cfg : MapCfg K V} {m : generalmap K V}
    (hwf : wf cfg m) {i : Nat} (hi : i < m.size) (hocc : ¬ occupied m i = true)
    {k : K} (hk0 : k ≠ cfg.k0) (hash : Nat) :
    generalmapIsMatch cfg m i k hash = false := by
  obtain ⟨-, -, -, -, hiff, -, -, -, -, -⟩ := hwf
  have hkey : m.keysStr.getD i cfg.k0 = cfg.k0 := by
    by_contra hne
    exact hocc ((hiff i hi).mpr hne)
  have hne : ¬ (m.keysStr.getD i cfg.k0 = k) := by
    rw [hkey]
    exact fun h => hk0 h.symm
  unfold generalmapIsMatch
  by_cases hcmp : cfg.useCmp = true
  · rw [if_pos hcmp, decide_eq_false hne, Bool.and_false]
  · rw [if_neg hcmp]
    exact decide_eq_false hne

theorem stopCond_of_occupied {cfg : MapCfg K V} {m : generalmap K V} {i : Nat}
    (hocc : occupied m i = true) (k : K) (hash : Nat) :
    stopCond cfg m k hash i = generalmapIsMatch cfg m i k hash := by
  unfold stopCond
  obtain ⟨v, hv⟩ := Option.isSome_iff_exists.mp hocc
  rw [hv]
  rfl

theorem stopCond_of_empty {cfg : MapCfg K V} {m : generalmap K V} {i : Nat}
    (hocc : ¬ occupied m i = true) (k : K) (hash : Nat) :
    stopCond cfg m k hash i = true := by
  unfold stopCond
  unfold occupied at hocc
  rcases hv : m.values.getD i none with _ | v
  · rfl
  · rw [hv] at hocc
    simp at hocc

/-- Probing for the key of an occupied slot lands exactly on that slot:
the probe invariant says every earlier probe position is occupied, and key
distinctness says none of them matches. -/
theorem generalmapFind_present {cfg : MapCfg K V} {m : generalmap K V}
    (hwf : wf cfg m) {j : Nat} {k : K}
    (hh : cfg.hashf k m.size < m.size)
    (hj : j < m.size) (hocc : occupied m j = true)
    (hkey : m.keysStr.getD j cfg.k0 = k) :
    generalmapFind cfg m k (cfg.hashf k m.size) = j := by
  have hwf' := hwf
  obtain ⟨-, -, -, -, -, hdist, -, -, hprobe, -⟩ := hwf'
  have hmem : j ∈ probeSeq m.size (cfg.hashf k m.size) :=
    lt_mem_probeSeq (le_of_lt hh) hj
  obtain ⟨l₂, hsplit⟩ := mem_split_takeWhile_bne hmem
  have hpre := hprobe j hj hocc
  rw [hkey] at hpre
  have hfail : ∀ i ∈ (probeSeq m.size (cfg.hashf k m.size)).takeWhile
      (fun i => i != j), ¬ stopCond cfg m k (cfg.hashf k m.size) i = true := by
    intro i hi hstop
    have hocc_i : occupied m i = true := hpre i hi
    have hb : (i != j) = true :=
      @List.mem_takeWhile_imp Nat (fun y => y != j)
        (probeSeq m.size (cfg.hashf k m.size)) i hi
    have hne : i ≠ j := bne_iff_ne.mp hb
    have hi_lt : i < m.size :=
      mem_probeSeq_lt (le_of_lt hh) ((List.takeWhile_sublist _).subset hi)
    rw [stopCond_of_occupied hocc_i, isMatch_occupied_eq hwf hi_lt hocc_i] at hstop
    exact hne (hdist i hi_lt j hj hocc_i hocc
      ((of_decide_eq_true hstop).trans hkey.symm))
  have hstopj : stopCond cfg m k (cfg.hashf k m.size) j = true := by
    rw [stopCond_of_occupied hocc, isMatch_occupied_eq hwf hj hocc]
    exact decide_eq_true hkey
  have hfound : (probeSeq m.size (cfg.hashf k m.size)).find?
      (stopCond cfg m k (cfg.hashf k m.size)) = some j := by
    conv_lhs => rw [hsplit]
    exact find?_append_first _ _ hfail hstopj
  unfold generalmapFind
  rw [hfound]



/-- Probing for a key that is in no occupied slot stops at an empty slot
whenever one exists (`elements < size`), and stays inside the buffer. -/
theorem generalmapFind_absent {cfg : MapCfg K V} {m : generalmap K V}
    (hwf : wf cfg m) {k : K}
    (hh : cfg.hashf k m.size < m.size)
    (habs : ∀ i, i < m.size →
      ¬(occupied m i = true ∧ m.keysStr.getD i cfg.k0 = k))
    (hroom : m.elements < m.size) :
    generalmapFind cfg m k (cfg.hashf k m.size) < m.size ∧
    m.values.getD (generalmapFind cfg m k (cfg.hashf k m.size)) none = none ∧
    (probeSeq m.size (cfg.hashf k m.size)).find? (stopCond cfg m k (cfg.hashf k m.size))
      = some (generalmapFind cfg m k (cfg.hashf k m.size)) := by
  have hwf' := hwf
  obtain ⟨hpos, hkl, hvl, -, hiff, -, -, hcnt, -, -⟩ := hwf'
  obtain ⟨a, hamem, hna⟩ : ∃ a : Option V, a ∈ m.values ∧ ¬ a.isSome = true := by
    by_contra hall
    push_neg at hall
    have h1 : m.values.countP (fun v => v.isSome) = m.values.length :=
      List.countP_eq_length.mpr fun (a : Option V) ha =>
        (by simpa using hall a ha : a.isSome = true)
    rw [hvl] at h1
    omega
  have ha_none : a = none := by
    cases a
    · rfl
    · simp at hna
  obtain ⟨i0, hi0, hval⟩ := List.mem_iff_getElem.mp hamem
  have hempty0 : m.values.getD i0 none = none := by
    rw [List.getD_eq_getElem _ _ hi0, hval, ha_none]
  have hi0size : i0 < m.size := hvl ▸ hi0
  have hnocc0 : ¬ occupied m i0 = true := by
    unfold occupied
    rw [hempty0]
    simp
  have hstop0 : stopCond cfg m k (cfg.hashf k m.size) i0 = true :=
    stopCond_of_empty hnocc0 k _
  have hmem0 : i0 ∈ probeSeq m.size (cfg.hashf k m.size) :=
    lt_mem_probeSeq (le_of_lt hh) hi0size
  have hsome : (probeSeq m.size (cfg.hashf k m.size)).find?
      (stopCond cfg m k (cfg.hashf k m.size)) ≠ none := fun hnone =>
    absurd hstop0 (List.find?_eq_none.mp hnone i0 hmem0)
  obtain ⟨r, hr⟩ := Option.ne_none_iff_exists'.mp hsome
  have hstopr := List.find?_some hr
  have hrsize : r < m.size :=
    mem_probeSeq_lt (le_of_lt hh) (List.mem_of_find?_eq_some hr)
  have hrempty : m.values.getD r none = none := by
    rcases horb : occupied m r with _ | _
    · rcases hv : m.values.getD r none with _ | v
      · rfl
      · unfold occupied at horb
        rw [hv] at horb
        simp at horb
    · rw [stopCond_of_occupied horb, isMatch_occupied_eq hwf hrsize horb]
        at hstopr
      exact absurd ⟨horb, of_decide_eq_true hstopr⟩ (habs r hrsize)
  simp only [generalmapFind, hr]
  exact ⟨hrsize, hrempty, trivial⟩

/-- The lookup of `generalmapMap` computes exactly the abstract contents,
for every nonzero key (no load-factor hypothesis is needed: even in a full
table the fruitless sweep ends on a non-matching slot). -/
theorem generalmapMap_eq_contents {cfg : MapCfg K V} {m : generalmap K V}
    (hwf : wf cfg m) {k : K}
    (hh : cfg.hashf k m.size < m.size) (hk0 : k ≠ cfg.k0) :
    generalmapMap cfg m k = contents cfg m k := by
  rcases hc : (List.range m.size).find?
      (fun i => occupied m i && decide (m.keysStr.getD i cfg.k0 = k)) with _ | i
  · have habs : ∀ i, i < m.size →
        ¬(occupied m i = true ∧ m.keysStr.getD i cfg.k0 = k) := by
      rintro i hi ⟨h1, h2⟩
      have hpred : (occupied m i && decide (m.keysStr.getD i cfg.k0 = k)) = true := by
        rw [h1, decide_eq_true h2]
        rfl
      exact absurd hpred (List.find?_eq_none.mp hc i (List.mem_range.mpr hi))
    rcases hfr : (probeSeq m.size (cfg.hashf k m.size)).find?
        (stopCond cfg m k (cfg.hashf k m.size)) with _ | r
    · have hhashmem : cfg.hashf k m.size ∈ probeSeq m.size (cfg.hashf k m.size) :=
        lt_mem_probeSeq (le_of_lt hh) hh
      have hns := List.find?_eq_none.mp hfr _ hhashmem
      have hm : generalmapIsMatch cfg m (cfg.hashf k m.size) k
          (cfg.hashf k m.size) = false := by
        rcases hb : generalmapIsMatch cfg m (cfg.hashf k m.size) k
            (cfg.hashf k m.size) with _ | _
        · rfl
        · exfalso
          apply hns
          unfold stopCond
          rw [hb, Bool.or_true]
      simp only [contents, generalmapMap, generalmapFind, hc, hfr]
      rw [hm, if_neg Bool.false_ne_true]
    · have hstopr := List.find?_some hfr
      have hrsize : r < m.size :=
        mem_probeSeq_lt (le_of_lt hh) (List.mem_of_find?_eq_some hfr)
      rcases horb : occupied m r with _ | _
      · have hm := isMatch_unoccupied_eq_false hwf hrsize
          (by rw [horb]; exact Bool.false_ne_true) hk0 (cfg.hashf k m.size)
        simp only [contents, generalmapMap, generalmapFind, hc, hfr]
        rw [hm, if_neg Bool.false_ne_true]
      · rw [stopCond_of_occupied horb, isMatch_occupied_eq hwf hrsize horb]
          at hstopr
        exact absurd ⟨horb, of_decide_eq_true hstopr⟩ (habs r hrsize)
  · have hpred := List.find?_some hc
    have hisize : i < m.size :=
      List.mem_range.mp (List.mem_of_find?_eq_some hc)
    rw [Bool.and_eq_true] at hpred
    obtain ⟨hocc, hkey⟩ := hpred
    have hkey' : m.keysStr.getD i cfg.k0 = k := of_decide_eq_true hkey
    have hfind := generalmapFind_present hwf hh hisize hocc hkey'
    simp only [contents, generalmapMap, hc, hfind]
    rw [isMatch_occupied_eq hwf hisize hocc, decide_eq_true hkey', if_pos rfl]

/-- Same as `generalmapMap_eq_contents` for the membership test. -/
theorem generalmapTest_eq_contents {cfg : MapCfg K V} {m : generalmap K V}
    (hwf : wf cfg m) {k : K}
    (hh : cfg.hashf k m.size < m.size) (hk0 : k ≠ cfg.k0) :
    generalmapTest cfg m k = (contents cfg m k).isSome := by
  have hmap := generalmapMap_eq_contents hwf hh hk0
  simp only [generalmapMap] at hmap
  simp only [generalmapTest]
  rcases hb : generalmapIsMatch cfg m (generalmapFind cfg m k (cfg.hashf k m.size))
      k (cfg.hashf k m.size) with _ | _
  · rw [hb, if_neg Bool.false_ne_true] at hmap
    rw [← hmap]
    rfl
  · rw [hb, if_pos rfl] at hmap
    rw [← hmap]
    have hYocc : (m.values.getD (generalmapFind cfg m k (cfg.hashf k m.size)) none).isSome
        = true := by
      rcases hv : m.values.getD (generalmapFind cfg m k (cfg.hashf k m.size)) none
          with _ | v
      · exfalso
        have hnocc : ¬ occupied m (generalmapFind cfg m k (cfg.hashf k m.size)) = true := by
          unfold occupied
          rw [hv]
          simp
        by_cases hfs : generalmapFind cfg m k (cfg.hashf k m.size) < m.size
        · rw [isMatch_unoccupied_eq_false hwf hfs hnocc hk0] at hb
          exact Bool.false_ne_true hb
        · have hko : m.keysStr.getD (generalmapFind cfg m k (cfg.hashf k m.size))
              cfg.k0 = cfg.k0 := by
            obtain ⟨-, hkl, -, -, -, -, -, -, -, -⟩ := hwf
            rw [List.getD_eq_getElem?_getD, List.getElem?_eq_none (by omega),
              Option.getD_none]
          unfold generalmapIsMatch at hb
          rcases hcmp : cfg.useCmp with _ | _ <;> rw [hcmp] at hb
          · rw [if_neg (by simp)] at hb
            rw [hko] at hb
            exact hk0 (of_decide_eq_true hb).symm
          · rw [if_pos rfl, Bool.and_eq_true] at hb
            rw [hko] at hb
            exact hk0 (of_decide_eq_true hb.2).symm
      · rfl
    rw [hYocc]

theorem range_split {r n : Nat} (h : r < n) :
    List.range n = List.range r ++ r :: List.range' (r + 1) (n - r - 1) := by
  rw [List.range_eq_range', List.range_eq_range']
  have h2 : List.range' 0 r ++ List.range' r (n - r) = List.range' 0 n := by
    have happ := List.range'_append 0 r (n - r) 1
    simp only [Nat.one_mul, Nat.zero_add] at happ
    rw [happ, Nat.sub_add_cancel (le_of_lt h)]
  rw [← h2]
  congr 1
  have h3 : n - r = (n - r - 1) + 1 := by omega
  nth_rewrite 1 [h3]
  rw [List.range'_succ]

/-- Unfolding `generalmapAddNoGrow` when the found slot is occupied
(the remap branch). -/
theorem addNoGrow_present_eq {cfg : MapCfg K V} {m : generalmap K V}
    {key : K} (value : Option V) {j : Nat}
    (hfind : generalmapFind cfg m key (cfg.hashf key m.size) = j)
    (hocc : occupied m j = true) :
    generalmapAddNoGrow cfg m key value =
      (true,
        { m with
          values := m.values.set j (if cfg.hasValues then value else some cfg.vtrue) }) := by
  unfold occupied at hocc
  obtain ⟨v, hv⟩ := Option.isSome_iff_exists.mp hocc
  simp only [generalmapAddNoGrow, hfind, hv, Option.isNone_some]
  simp

/-- Unfolding `generalmapAddNoGrow` when the found slot is empty
(the fresh-insert branch). -/
theorem addNoGrow_absent_eq {cfg : MapCfg K V} {m : generalmap K V}
    {key : K} (value : Option V) {r : Nat}
    (hfind : generalmapFind cfg m key (cfg.hashf key m.size) = r)
    (hempty : m.values.getD r none = none) :
    generalmapAddNoGrow cfg m key value =
      (false,
        { m with
          keysStr := m.keysStr.set r key
          elements := m.elements + 1
          hashes := (if cfg.useCmp then m.hashes.set r (cfg.hashf key m.size)
            else m.hashes)
          values := m.values.set r (if cfg.hasValues then value else some cfg.vtrue) }) := by
  simp only [generalmapAddNoGrow, hfind, hempty, Option.isNone_none]
  simp

/-- The full specification of one insertion step (growth aside): under the
invariant, with a nonzero key, an in-range hash function, room in the
table, and a non-null effective value, `generalmapAdd`'s body preserves
the invariant, keeps the size, returns the presence flag, bumps `elements`
exactly on fresh keys, and updates the abstract contents pointwise. -/
theorem generalmapAddNoGrow_spec {cfg : MapCfg K V} {m : generalmap K V}
    {key : K} {value : Option V}
    (hwf : wf cfg m)
    (Hh : ∀ k', cfg.hashf k' m.size < m.size)
    (hk0 : key ≠ cfg.k0)
    (hroom : m.elements < m.size)
    (hw : (if cfg.hasValues then value else some cfg.vtrue).isSome = true) :
    wf cfg (generalmapAddNoGrow cfg m key value).2 ∧
    (generalmapAddNoGrow cfg m key value).2.size = m.size ∧
    (generalmapAddNoGrow cfg m key value).1 = (contents cfg m key).isSome ∧
    (generalmapAddNoGrow cfg m key value).2.elements
      = (if (contents cfg m key).isSome then m.elements else m.elements + 1) ∧
    (∀ k', contents cfg (generalmapAddNoGrow cfg m key value).2 k'
      = if k' = key then (if cfg.hasValues then value else some cfg.vtrue)
        else contents cfg m k') := by
  have hwf' := hwf
  obtain ⟨hpos, hkl, hvl, hhl, hiff, hdist, hcache, hcnt, hprobe, hsent⟩ := hwf'
  rcases hc : (List.range m.size).find?
      (fun i => occupied m i && decide (m.keysStr.getD i cfg.k0 = key)) with _ | j
  · -- the key is absent: fresh insertion into an empty slot
    have habs : ∀ i, i < m.size →
        ¬(occupied m i = true ∧ m.keysStr.getD i cfg.k0 = key) := by
      rintro i hi ⟨h1, h2⟩
      have hpred : (occupied m i && decide (m.keysStr.getD i cfg.k0 = key)) = true := by
        rw [h1, decide_eq_true h2]
        rfl
      exact absurd hpred (List.find?_eq_none.mp hc i (List.mem_range.mpr hi))
    obtain ⟨hrsize, hrempty, hfr⟩ := generalmapFind_absent hwf (Hh key) habs hroom
    have heq := addNoGrow_absent_eq value
      (rfl : generalmapFind cfg m key (cfg.hashf key m.size)
        = generalmapFind cfg m key (cfg.hashf key m.size)) hrempty
    rw [heq]
    dsimp only
    set r := generalmapFind cfg m key (cfg.hashf key m.size) with hrdef
    set w : Option V := if cfg.hasValues then value else some cfg.vtrue with hwdef
    set m' : generalmap K V :=
      { m with
        keysStr := m.keysStr.set r key
        elements := m.elements + 1
        hashes := (if cfg.useCmp = true then m.hashes.set r (cfg.hashf key m.size)
          else m.hashes)
        values := m.values.set r w } with hmdef
    have hnocc_r : occupied m r = false := by
      unfold occupied
      rw [hrempty]
      rfl
    have hocc'r : occupied m' r = true := by
      unfold occupied
      rw [hmdef]
      dsimp only
      rw [getD_set_self _ _ _ _ (hvl ▸ hrsize)]
      exact hw
    have hocc'ne : ∀ i, i ≠ r → occupied m' i = occupied m i := by
      intro i hir
      unfold occupied
      rw [hmdef]
      dsimp only
      rw [getD_set_ne _ _ _ fun h => hir h.symm]
    have hkeys'r : m'.keysStr.getD r cfg.k0 = key := by
      rw [hmdef]
      exact getD_set_self _ _ _ _ (hkl ▸ hrsize)
    have hkeys'ne : ∀ i, i ≠ r → m'.keysStr.getD i cfg.k0 = m.keysStr.getD i cfg.k0 := by
      intro i hir
      rw [hmdef]
      exact getD_set_ne _ _ _ fun h => hir h.symm
    have hhash'r : cfg.useCmp = true → m'.hashes.getD r 0 = cfg.hashf key m.size := by
      intro hcmp
      rw [hmdef]
      dsimp only
      rw [if_pos hcmp]
      exact getD_set_self _ _ _ _ (hhl hcmp ▸ hrsize)
    have hhash'ne : ∀ i, i ≠ r → m'.hashes.getD i 0 = m.hashes.getD i 0 := by
      intro i hir
      rw [hmdef]
      dsimp only
      by_cases hcmp : cfg.useCmp = true
      · rw [if_pos hcmp]
        exact getD_set_ne _ _ _ fun h => hir h.symm
      · rw [if_neg hcmp]
    have hcontabs : (contents cfg m key).isSome = false := by
      unfold contents
      rw [hc]
      rfl
    have hpredm_false : ∀ y, y < m.size →
        (occupied m y && decide (m.keysStr.getD y cfg.k0 = key)) = false := by
      intro y hy
      rcases hoy : occupied m y with _ | _
      · rw [Bool.false_and]
      · have hnk : ¬ m.keysStr.getD y cfg.k0 = key := fun hk => habs y hy ⟨hoy, hk⟩
        rw [decide_eq_false hnk, Bool.and_false]
    refine ⟨?_, rfl, ?_, ?_, ?_⟩
    · refine ⟨hpos, ?_, ?_, ?_, ?_, ?_, ?_, ?_, ?_, ?_⟩
      · rw [hmdef]
        dsimp only
        rw [List.length_set]
        exact hkl
      · rw [hmdef]
        dsimp only
        rw [List.length_set]
        exact hvl
      · intro hcmp
        rw [hmdef]
        dsimp only
        rw [if_pos hcmp, List.length_set]
        exact hhl hcmp
      · intro i hi
        by_cases hir : i = r
        · subst hir
          rw [hocc'r, hkeys'r]
          exact iff_of_true rfl hk0
        · rw [hocc'ne i hir, hkeys'ne i hir]
          exact hiff i hi
      · intro i hi j' hj' h1 h2 hkeq
        by_cases hir : i = r
        · by_cases hjr : j' = r
          · rw [hir, hjr]
          · exfalso
            rw [hocc'ne j' hjr] at h2
            rw [hir, hkeys'r, hkeys'ne j' hjr] at hkeq
            exact habs j' hj' ⟨h2, hkeq.symm⟩
        · by_cases hjr : j' = r
          · exfalso
            rw [hocc'ne i hir] at h1
            rw [hjr, hkeys'r, hkeys'ne i hir] at hkeq
            exact habs i hi ⟨h1, hkeq⟩
          · rw [hocc'ne i hir] at h1
            rw [hocc'ne j' hjr] at h2
            rw [hkeys'ne i hir, hkeys'ne j' hjr] at hkeq
            exact hdist i hi j' hj' h1 h2 hkeq
      · intro hcmp i hi h1
        by_cases hir : i = r
        · subst hir
          rw [hhash'r hcmp, hkeys'r]
        · rw [hhash'ne i hir, hkeys'ne i hir]
          rw [hocc'ne i hir] at h1
          exact hcache hcmp i hi h1
      · rw [hmdef]
        dsimp only
        have hb : r < m.values.length := hvl ▸ hrsize
        rw [List.countP_set _ _ _ _ hb]
        have hget : m.values[r] = none := by
          rw [← List.getD_eq_getElem m.values none hb]
          exact hrempty
        rw [hget, hw]
        simp only [Option.isSome_none, Bool.false_eq_true, if_false, Nat.sub_zero,
          if_true]
        omega
      · intro j' hj' hoccj' i hi
        by_cases hjr : j' = r
        · subst hjr
          rw [hkeys'r] at hi
          obtain ⟨l₁, l₂, hsp, hfail⟩ := find?_eq_some_split hfr
          have hstopr_true : stopCond cfg m key (cfg.hashf key m.size) r = true :=
            stopCond_of_empty (by rw [hnocc_r]; exact Bool.false_ne_true) key _
          have hl1r : ∀ y ∈ l₁, y ≠ r := by
            intro y hy hyr
            exact hfail y hy (hyr ▸ hstopr_true)
          have htw : (probeSeq m.size (cfg.hashf key m.size)).takeWhile
              (fun y => y != r) = l₁ := by
            rw [hsp]
            exact takeWhile_bne_append l₁ l₂ hl1r
          rw [htw] at hi
          rcases hoc : occupied m i with _ | _
          · exfalso
            exact hfail i hi
              (stopCond_of_empty (by rw [hoc]; exact Bool.false_ne_true) key _)
          · have hir : i ≠ r := by
              intro hirr
              rw [hirr, hnocc_r] at hoc
              exact Bool.false_ne_true hoc
            rw [hocc'ne i hir]
            exact hoc
        · have hoccj : occupied m j' = true := by
            rw [← hocc'ne j' hjr]
            exact hoccj'
          rw [hkeys'ne j' hjr] at hi
          have hold := hprobe j' hj' hoccj i hi
          have hir : i ≠ r := by
            intro hirr
            rw [hirr, hnocc_r] at hold
            exact Bool.false_ne_true hold
          rw [hocc'ne i hir]
          exact hold
      · intro hnv i hi h1
        by_cases hir : i = r
        · subst hir
          rw [hmdef]
          dsimp only
          rw [getD_set_self _ _ _ _ (hvl ▸ hrsize), hwdef, hnv]
          simp
        · rw [hmdef]
          dsimp only
          rw [getD_set_ne _ _ _ fun h => hir h.symm]
          rw [hocc'ne i hir] at h1
          exact hsent hnv i hi h1
    · rw [hcontabs]
    · rw [hcontabs]
      rfl
    · intro k'
      by_cases hkk : k' = key
      · subst k'
        rw [if_pos rfl]
        unfold contents
        rw [hmdef]
        dsimp only
        have hfirst : (List.range m.size).find?
            (fun i => occupied m' i && decide ((m.keysStr.set r key).getD i cfg.k0 = key))
            = some r := by
          rw [range_split hrsize]
          apply find?_append_first
          · intro y hy
            have hylt : y < r := List.mem_range.mp hy
            have hyr : y ≠ r := by omega
            rw [hocc'ne y hyr]
            have hky : (m.keysStr.set r key).getD y cfg.k0 = m.keysStr.getD y cfg.k0 :=
              getD_set_ne _ _ _ fun h => hyr h.symm
            rw [hky, hpredm_false y (by omega)]
            exact Bool.false_ne_true
          · have hky : (m.keysStr.set r key).getD r cfg.k0 = key :=
              getD_set_self _ _ _ _ (hkl ▸ hrsize)
            rw [hocc'r, hky, decide_eq_true rfl]
            rfl
        rw [hfirst]
        exact getD_set_self _ _ _ _ (hvl ▸ hrsize)
      · rw [if_neg hkk]
        unfold contents
        rw [hmdef]
        dsimp only
        have hpredeq : ∀ i ∈ List.range m.size,
            (occupied m' i && decide ((m.keysStr.set r key).getD i cfg.k0 = k'))
            = (occupied m i && decide (m.keysStr.getD i cfg.k0 = k')) := by
          intro i _
          by_cases hir : i = r
          · subst hir
            have hky : (m.keysStr.set r key).getD r cfg.k0 = key :=
              getD_set_self _ _ _ _ (hkl ▸ hrsize)
            rw [hocc'r, hky, hnocc_r, decide_eq_false fun h => hkk h.symm,
              Bool.and_false, Bool.false_and]
          · have hky : (m.keysStr.set r key).getD i cfg.k0 = m.keysStr.getD i cfg.k0 :=
              getD_set_ne _ _ _ fun h => hir h.symm
            rw [hocc'ne i hir, hky]
        rw [find?_congr_on _ hpredeq]
        rcases hck : (List.range m.size).find?
            (fun i => occupied m i && decide (m.keysStr.getD i cfg.k0 = k')) with _ | i
        · rfl
        · have hpred := List.find?_some hck
          rw [Bool.and_eq_true] at hpred
          have hocc_i := hpred.1
          have hir : i ≠ r := by
            intro h
            rw [h, hnocc_r] at hocc_i
            exact Bool.false_ne_true hocc_i
          exact getD_set_ne _ _ _ fun h => hir h.symm
  · -- the key is present at slot j: overwrite in place
    have hpredj := List.find?_some hc
    rw [Bool.and_eq_true] at hpredj
    obtain ⟨hoccj, hkeyb⟩ := hpredj
    have hkeyj : m.keysStr.getD j cfg.k0 = key := of_decide_eq_true hkeyb
    have hjsize : j < m.size := List.mem_range.mp (List.mem_of_find?_eq_some hc)
    have hfind := generalmapFind_present hwf (Hh key) hjsize hoccj hkeyj
    have heq := addNoGrow_present_eq value hfind hoccj
    rw [heq]
    dsimp only
    set w : Option V := if cfg.hasValues then value else some cfg.vtrue with hwdef
    set m' : generalmap K V := { m with values := m.values.set j w } with hmdef
    have hocc' : ∀ i, occupied m' i = occupied m i := by
      intro i
      unfold occupied
      rw [hmdef]
      dsimp only
      by_cases hij : j = i
      · subst hij
        rw [getD_set_self _ _ _ _ (hvl ▸ hjsize), hw]
        unfold occupied at hoccj
        exact hoccj.symm
      · rw [getD_set_ne _ _ _ hij]
    have hcs : (contents cfg m key).isSome = true := by
      unfold contents
      rw [hc]
      unfold occupied at hoccj
      exact hoccj
    refine ⟨?_, rfl, ?_, ?_, ?_⟩
    · refine ⟨hpos, hkl, ?_, hhl, ?_, ?_, ?_, ?_, ?_, ?_⟩
      · rw [hmdef]
        dsimp only
        rw [List.length_set]
        exact hvl
      · intro i hi
        rw [hocc' i]
        exact hiff i hi
      · intro i hi j' hj' h1 h2 hkeq
        rw [hocc' i] at h1
        rw [hocc' j'] at h2
        exact hdist i hi j' hj' h1 h2 hkeq
      · intro hcmp i hi h1
        rw [hocc' i] at h1
        exact hcache hcmp i hi h1
      · rw [hmdef]
        dsimp only
        have hb : j < m.values.length := hvl ▸ hjsize
        rw [List.countP_set _ _ _ _ hb]
        have hget : (m.values[j]).isSome = true := by
          rw [← List.getD_eq_getElem m.values none hb]
          unfold occupied at hoccj
          exact hoccj
        have hposc : 0 < m.values.countP (fun v => v.isSome) :=
          List.countP_pos_iff.mpr ⟨m.values[j], List.getElem_mem _, hget⟩
        rw [hget, hw]
        simp only [if_true]
        omega
      · intro j' hj' hoccj' i hi
        rw [hocc' j'] at hoccj'
        rw [hocc' i]
        exact hprobe j' hj' hoccj' i hi
      · intro hnv i hi h1
        rw [hocc' i] at h1
        rw [hmdef]
        dsimp only
        by_cases hij : j = i
        · subst hij
          rw [getD_set_self _ _ _ _ (hvl ▸ hjsize), hwdef, hnv]
          simp
        · rw [getD_set_ne _ _ _ hij]
          exact hsent hnv i hi h1
    · rw [hcs]
    · rw [hcs]
      rfl
    · intro k'
      have hpredeq : ∀ i ∈ List.range m.size,
          (occupied m' i && decide (m.keysStr.getD i cfg.k0 = k'))
          = (occupied m i && decide (m.keysStr.getD i cfg.k0 = k')) := by
        intro i _
        rw [hocc' i]
      unfold contents
      rw [hmdef]
      dsimp only
      rw [find?_congr_on _ hpredeq]
      by_cases hkk : k' = key
      · subst k'
        rw [hc, if_pos rfl]
        exact getD_set_self _ _ _ _ (hvl ▸ hjsize)
      · rw [if_neg hkk]
        rcases hck : (List.range m.size).find?
            (fun i => occupied m i && decide (m.keysStr.getD i cfg.k0 = k')) with _ | i
        · rfl
        · have hpred := List.find?_some hck
          rw [Bool.and_eq_true] at hpred
          have hkey_i := of_decide_eq_true hpred.2
          have hij : j ≠ i := by
            intro h
            apply hkk
            rw [← hkey_i, ← h, hkeyj]
          exact getD_set_ne _ _ _ hij

/-- Under the invariant no occupied slot holds the zero key, so the zero
key is never associated. -/
theorem contents_k0_none {cfg : MapCfg K V} {m : generalmap K V}
    (hwf : wf cfg m) : contents cfg m cfg.k0 = none := by
  obtain ⟨-, -, -, -, hiff, -, -, -, -, -⟩ := hwf
  unfold contents
  rw [List.find?_eq_none.mpr]
  intro i hi
  rcases hoy : occupied m i with _ | _
  · rw [Bool.false_and]
    exact Bool.false_ne_true
  · have hne : m.keysStr.getD i cfg.k0 ≠ cfg.k0 :=
      (hiff i (List.mem_range.mp hi)).mp hoy
    rw [decide_eq_false hne, Bool.and_false]
    exact Bool.false_ne_true

/-- A freshly initialized table satisfies the invariant as soon as its
rounded size is positive. -/
theorem wf_generalmapInit (cfg : MapCfg K V) (x : Int)
    (hx : 0 < (pow2ize x).toNat) : wf cfg (generalmapInit cfg x) := by
  have hocc : ∀ i, occupied (generalmapInit cfg x) i = false := by
    intro i
    unfold occupied generalmapInit
    dsimp only
    rw [getD_replicate_self]
    rfl
  refine ⟨hx, ?_, ?_, ?_, ?_, ?_, ?_, ?_, ?_, ?_⟩
  · exact List.length_replicate _ _
  · exact List.length_replicate _ _
  · intro hcmp
    unfold generalmapInit
    dsimp only
    rw [if_pos hcmp]
    exact List.length_replicate _ _
  · intro i hi
    rw [hocc i]
    unfold generalmapInit
    dsimp only
    rw [getD_replicate_self]
    exact iff_of_false Bool.false_ne_true fun h => h rfl
  · intro i hi j hj h1 h2 hk
    rw [hocc i] at h1
    exact absurd h1 Bool.false_ne_true
  · intro hcmp i hi h1
    rw [hocc i] at h1
    exact absurd h1 Bool.false_ne_true
  · unfold generalmapInit
    dsimp only
    rw [List.countP_replicate]
    simp
  · intro j hj h1
    rw [hocc j] at h1
    exact absurd h1 Bool.false_ne_true
  · intro hnv i hi h1
    rw [hocc i] at h1
    exact absurd h1 Bool.false_ne_true

theorem contents_generalmapInit (cfg : MapCfg K V) (x : Int) (k : K) :
    contents cfg (generalmapInit cfg x) k = none := by
  unfold contents
  rw [List.find?_eq_none.mpr]
  intro i hi
  have hocc : occupied (generalmapInit cfg x) i = false := by
    unfold occupied generalmapInit
    dsimp only
    rw [getD_replicate_self]
    rfl
  rw [hocc, Bool.false_and]
  exact Bool.false_ne_true

/-- Lookups on a freshly initialized table always return null, whatever the
key: every slot's value is null. -/
theorem generalmapMap_init (cfg : MapCfg K V) (x : Int) (k : K) :
    generalmapMap cfg (generalmapInit cfg x) k = none := by
  simp only [generalmapMap]
  rcases hb : generalmapIsMatch cfg (generalmapInit cfg x)
      (generalmapFind cfg (generalmapInit cfg x) k
        (cfg.hashf k (generalmapInit cfg x).size)) k
      (cfg.hashf k (generalmapInit cfg x).size) with _ | _
  · rw [if_neg Bool.false_ne_true]
  · rw [if_pos rfl]
    unfold generalmapInit
    dsimp only
    exact getD_replicate_self

/-- The effect of `generalmapMerge`'s loop (with the no-growth add, as used
on the growth path) over any set of source slots: every occupied source
slot whose key is fresh in the destination is re-inserted, zero-key slots
are skipped, and nothing else changes. -/
theorem mergeNoGrow_fold_spec {cfg : MapCfg K V} {src : generalmap K V}
    (hwfs : wf cfg src) :
    ∀ (idxs : List Nat), (∀ i ∈ idxs, i < src.size) → idxs.Nodup →
    ∀ dest : generalmap K V,
    wf cfg dest →
    (∀ k', cfg.hashf k' dest.size < dest.size) →
    dest.elements + (idxs.filter (fun i => occupied src i)).length ≤ dest.size →
    (∀ i ∈ idxs, occupied src i = true →
      contents cfg dest (src.keysStr.getD i cfg.k0) = none) →
    wf cfg (idxs.foldl (mergeStep cfg src none (generalmapAddNoGrow cfg)) dest) ∧
    (idxs.foldl (mergeStep cfg src none (generalmapAddNoGrow cfg)) dest).size
      = dest.size ∧
    (idxs.foldl (mergeStep cfg src none (generalmapAddNoGrow cfg)) dest).elements
      = dest.elements + (idxs.filter (fun i => occupied src i)).length ∧
    (∀ k', (∀ i ∈ idxs, ¬(occupied src i = true ∧ src.keysStr.getD i cfg.k0 = k')) →
      contents cfg (idxs.foldl (mergeStep cfg src none (generalmapAddNoGrow cfg)) dest) k'
        = contents cfg dest k') ∧
    (∀ i ∈ idxs, occupied src i = true →
      contents cfg (idxs.foldl (mergeStep cfg src none (generalmapAddNoGrow cfg)) dest)
          (src.keysStr.getD i cfg.k0)
        = (if cfg.hasValues then src.values.getD i none else some cfg.vtrue)) := by
  have hwfs' := hwfs
  obtain ⟨hspos, hskl, hsvl, hshl, hsiff, hsdist, hscache, hscnt, hsprobe, hssent⟩ := hwfs'
  intro idxs
  induction idxs with
  | nil =>
    intro hbnd hnd dest hwfd Hh hroom hfresh
    exact ⟨hwfd, rfl, by simp, fun k' _ => rfl, by simp⟩
  | cons a t ih =>
    intro hbnd hnd dest hwfd Hh hroom hfresh
    have hasize : a < src.size := hbnd a (by simp)
    have hndt : t.Nodup := (List.nodup_cons.mp hnd).2
    have hanotint : a ∉ t := (List.nodup_cons.mp hnd).1
    rw [List.foldl_cons]
    by_cases hka : src.keysStr.getD a cfg.k0 = cfg.k0
    · -- zero key: the slot is unoccupied and the loop skips it
      have hnocca : occupied src a = false := by
        rcases hoc : occupied src a with _ | _
        · rfl
        · exact absurd hka ((hsiff a hasize).mp hoc)
      have hstep : mergeStep cfg src none (generalmapAddNoGrow cfg) dest a = dest := by
        unfold mergeStep
        rw [if_pos (decide_eq_true hka)]
      rw [hstep]
      have hfilter : (a :: t).filter (fun i => occupied src i)
          = t.filter (fun i => occupied src i) := by
        rw [List.filter_cons, hnocca]
        simp
      rw [hfilter] at hroom ⊢
      have := ih (fun i hi => hbnd i (by simp [hi])) hndt dest hwfd Hh hroom
        (fun i hi ho => hfresh i (by simp [hi]) ho)
      refine ⟨this.1, this.2.1, this.2.2.1, ?_, ?_⟩
      · intro k' hk'
        exact this.2.2.2.1 k' fun i hi => hk' i (by simp [hi])
      · intro i hi ho
        rcases List.mem_cons.mp hi with rfl | hit
        · rw [hnocca] at ho
          exact absurd ho Bool.false_ne_true
        · exact this.2.2.2.2 i hit ho
    · -- nonzero key: the slot is occupied and re-added as a fresh key
      have hocca : occupied src a = true := (hsiff a hasize).mpr hka
      have hstep : mergeStep cfg src none (generalmapAddNoGrow cfg) dest a
          = (generalmapAddNoGrow cfg dest (src.keysStr.getD a cfg.k0)
              (if cfg.hasValues then src.values.getD a none else none)).2 := by
        unfold mergeStep
        rw [if_neg (by rw [decide_eq_false hka]; exact Bool.false_ne_true)]
        rfl
      have hfilter : (a :: t).filter (fun i => occupied src i)
          = a :: t.filter (fun i => occupied src i) := by
        rw [List.filter_cons, hocca]
        simp
      rw [hfilter] at hroom
      rw [List.length_cons] at hroom
      have hroomd : dest.elements < dest.size := by omega
      have hweff : (if cfg.hasValues then
          (if cfg.hasValues then src.values.getD a none else none)
          else some cfg.vtrue).isSome = true := by
        rcases hv : cfg.hasValues with _ | _
        · rw [if_neg Bool.false_ne_true]
          rfl
        · rw [if_pos rfl, if_pos rfl]
          unfold occupied at hocca
          exact hocca
      have hspec := generalmapAddNoGrow_spec hwfd Hh hka hroomd hweff
      obtain ⟨hwf1, hsz1, hflag1, helts1, hcont1⟩ := hspec
      rw [hstep]
      set dest1 := (generalmapAddNoGrow cfg dest (src.keysStr.getD a cfg.k0)
        (if cfg.hasValues then src.values.getD a none else none)).2 with hd1
      have hfresh_a : contents cfg dest (src.keysStr.getD a cfg.k0) = none :=
        hfresh a (by simp) hocca
      have helts1' : dest1.elements = dest.elements + 1 := by
        rw [helts1, hfresh_a]
        rfl
      have hHh1 : ∀ k', cfg.hashf k' dest1.size < dest1.size := by
        intro k'
        rw [hsz1]
        exact Hh k'
      have hroom1 : dest1.elements + (t.filter (fun i => occupied src i)).length
          ≤ dest1.size := by
        rw [helts1', hsz1]
        omega
      have hkeydistinct : ∀ i ∈ t, occupied src i = true →
          src.keysStr.getD i cfg.k0 ≠ src.keysStr.getD a cfg.k0 := by
        intro i hit hoi hkeq
        have hisize : i < src.size := hbnd i (by simp [hit])
        have := hsdist i hisize a hasize hoi hocca hkeq
        exact hanotint (this ▸ hit)
      have hfresh1 : ∀ i ∈ t, occupied src i = true →
          contents cfg dest1 (src.keysStr.getD i cfg.k0) = none := by
        intro i hit hoi
        rw [hcont1, if_neg (hkeydistinct i hit hoi)]
        exact hfresh i (by simp [hit]) hoi
      have hres := ih (fun i hi => hbnd i (by simp [hi])) hndt dest1 hwf1 hHh1
        hroom1 hfresh1
      refine ⟨hres.1, ?_, ?_, ?_, ?_⟩
      · rw [hres.2.1, hsz1]
      · rw [hres.2.2.1, helts1', hfilter]
        rw [List.length_cons]
        omega
      · intro k' hk'
        have hne_a : ¬(occupied src a = true ∧ src.keysStr.getD a cfg.k0 = k') :=
          hk' a (by simp)
        have hka_ne : src.keysStr.getD a cfg.k0 ≠ k' := fun h => hne_a ⟨hocca, h⟩
        rw [hres.2.2.2.1 k' fun i hi => hk' i (by simp [hi])]
        rw [hcont1, if_neg fun h => hka_ne h.symm]
      · intro i hi hoi
        rcases List.mem_cons.mp hi with rfl | hit
        · have huntouched : ∀ i' ∈ t,
              ¬(occupied src i' = true ∧ src.keysStr.getD i' cfg.k0
                = src.keysStr.getD i cfg.k0) := by
            intro i' hit' ⟨hoi', hkeq'⟩
            exact hkeydistinct i' hit' hoi' hkeq'
          rw [hres.2.2.2.1 _ huntouched]
          rw [hcont1, if_pos rfl]
          by_cases hv : cfg.hasValues = true
          · rw [if_pos hv, if_pos hv, if_pos hv]
          · rw [if_neg hv, if_neg hv]
        · exact hres.2.2.2.2 i hit hoi

/-- A power of two. -/
def IsPow2 (n : Nat) : Prop := ∃ k, n = 2 ^ k

theorem generalmapInit_size (cfg : MapCfg K V) (x : Int) :
    (generalmapInit cfg x).size = (pow2ize x).toNat := rfl

theorem generalmapInit_size_two_pow (cfg : MapCfg K V) (k : Nat) :
    (generalmapInit cfg ((2 ^ k : Nat) : Int)).size = 2 ^ k := by
  rw [generalmapInit_size, pow2ize_two_pow]
  exact Int.toNat_natCast _

/-- The growth path of `Add`: the rebuilt table is twice the size, holds
exactly the same number of elements, realizes exactly the same abstract
association, and satisfies the invariant again. -/
theorem generalmapGrow_spec {cfg : MapCfg K V} {m : generalmap K V}
    (hwf : wf cfg m) (Hh : ∀ k' s, 0 < s → cfg.hashf k' s < s)
    {kk : Nat} (hsz : m.size = 2 ^ kk) :
    wf cfg (generalmapGrow cfg m) ∧
    (generalmapGrow cfg m).size = 2 * m.size ∧
    (generalmapGrow cfg m).elements = m.elements ∧
    (∀ k', contents cfg (generalmapGrow cfg m) k' = contents cfg m k') := by
  have hwf' := hwf
  obtain ⟨hpos, hkl, hvl, hhl, hiff, hdist, hcache, hcnt, hprobe, hsent⟩ := hwf'
  have hcast : (2 * (m.size : Int)) = ((2 ^ (kk + 1) : Nat) : Int) := by
    rw [hsz]
    push_cast
    ring
  have hdsize : (generalmapInit cfg (2 * (m.size : Int))).size = 2 ^ (kk + 1) := by
    rw [hcast, generalmapInit_size_two_pow]
  have h2s : 2 ^ (kk + 1) = 2 * m.size := by
    rw [hsz, pow_succ]
    ring
  have h1 : 1 ≤ 2 ^ (kk + 1) := Nat.one_le_two_pow
  have hwfd : wf cfg (generalmapInit cfg (2 * (m.size : Int))) := by
    apply wf_generalmapInit
    rw [← generalmapInit_size cfg (2 * (m.size : Int)), hdsize]
    omega
  have hdelts : (generalmapInit cfg (2 * (m.size : Int))).elements = 0 := rfl
  have hlen : ((List.range m.size).filter (fun i => occupied m i)).length
      = m.elements := by
    rw [← List.countP_eq_length_filter]
    have hb : (List.range m.values.length).countP
        (fun i => (m.values.getD i none).isSome) = m.values.countP (fun v => v.isSome) :=
      countP_range_getD m.values _ none
    rw [hvl] at hb
    rw [hcnt]
    simp only [occupied]
    exact hb
  have helem_le := wf_elements_le_size hwf
  have hmain := mergeNoGrow_fold_spec hwf (List.range m.size)
    (fun i hi => List.mem_range.mp hi) (List.nodup_range m.size)
    (generalmapInit cfg (2 * (m.size : Int))) hwfd
    (fun k' => Hh k' _ (by rw [hdsize]; omega))
    (by rw [hdelts, hdsize, hlen, h2s]; omega)
    (fun i hi ho => contents_generalmapInit cfg _ _)
  obtain ⟨hwfg, hszg, heltsg, huntouched, hslots⟩ := hmain
  have hgrow_eq : generalmapGrow cfg m
      = (List.range m.size).foldl (mergeStep cfg m none (generalmapAddNoGrow cfg))
        (generalmapInit cfg (2 * (m.size : Int))) := rfl
  rw [hgrow_eq]
  refine ⟨hwfg, by rw [hszg, hdsize, h2s], by rw [heltsg, hdelts, hlen]; omega, ?_⟩
  intro k'
  rcases hc : (List.range m.size).find?
      (fun i => occupied m i && decide (m.keysStr.getD i cfg.k0 = k')) with _ | i
  · have hnohit : ∀ i ∈ List.range m.size,
        ¬(occupied m i = true ∧ m.keysStr.getD i cfg.k0 = k') := by
      rintro i hi ⟨h1', h2'⟩
      have hpred : (occupied m i && decide (m.keysStr.getD i cfg.k0 = k')) = true := by
        rw [h1', decide_eq_true h2']
        rfl
      exact absurd hpred (List.find?_eq_none.mp hc i hi)
    rw [huntouched k' hnohit, contents_generalmapInit]
    unfold contents
    rw [hc]
  · have hpred := List.find?_some hc
    rw [Bool.and_eq_true] at hpred
    obtain ⟨hocc_i, hkeyb⟩ := hpred
    have hkey_i : m.keysStr.getD i cfg.k0 = k' := of_decide_eq_true hkeyb
    have hisize : i < m.size := List.mem_range.mp (List.mem_of_find?_eq_some hc)
    have hmemi : i ∈ List.range m.size := List.mem_range.mpr hisize
    have hcm : contents cfg m k' = m.values.getD i none := by
      unfold contents
      rw [hc]
    have := hslots i hmemi hocc_i
    rw [hkey_i] at this
    rw [this, hcm]
    rcases hv : cfg.hasValues with _ | _
    · rw [if_neg Bool.false_ne_true]
      exact (hsent hv i hisize hocc_i).symm
    · rw [if_pos rfl]

theorem addNoGrow_elements_size (cfg : MapCfg K V) (m : generalmap K V)
    (key : K) (value : Option V) :
    (generalmapAddNoGrow cfg m key value).2.elements ≤ m.elements + 1 ∧
    (generalmapAddNoGrow cfg m key value).2.size = m.size := by
  unfold generalmapAddNoGrow
  dsimp only
  split
  · exact ⟨le_refl _, rfl⟩
  · exact ⟨Nat.le_succ _, rfl⟩

/-- While there is room for every remaining slot, the full `generalmapAdd`
never takes its growth branch, so the merge loop behaves identically with
either add. -/
theorem foldl_mergeStep_eq_of_room {cfg : MapCfg K V} {src : generalmap K V}
    (dup : Option (K → K)) :
    ∀ (idxs : List Nat) (dest : generalmap K V),
    2 * (dest.elements + idxs.length) ≤ dest.size →
    idxs.foldl (mergeStep cfg src dup (generalmapAdd cfg)) dest
      = idxs.foldl (mergeStep cfg src dup (generalmapAddNoGrow cfg)) dest := by
  intro idxs
  induction idxs with
  | nil => intro dest h; rfl
  | cons a t ih =>
    intro dest hroom
    rw [List.length_cons] at hroom
    rw [List.foldl_cons, List.foldl_cons]
    have hstep : mergeStep cfg src dup (generalmapAdd cfg) dest a
        = mergeStep cfg src dup (generalmapAddNoGrow cfg) dest a := by
      unfold mergeStep
      split
      · rfl
      · have hng : ¬ (dest.size ≤ 2 * dest.elements + 1) := by omega
        unfold generalmapAdd
        rw [if_neg hng]
    rw [hstep]
    apply ih
    unfold mergeStep
    split
    · omega
    · dsimp only
      obtain ⟨h1, h2⟩ := addNoGrow_elements_size cfg dest
        ((dup.getD id) (src.keysStr.getD a cfg.k0))
        (if cfg.hasValues then src.values.getD a none else none)
      rw [h2]
      omega

/-- Faithfulness of the growth decomposition: for a power-of-two sized
table (which every reachable table is), `generalmapGrow` is exactly what
the C growth path executes, namely `generalmapMerge` of the old table into
a fresh table of twice the size, with no key duplication.  The growth
check inside the merge's `generalmapAdd` calls never fires, because the
destination has room for every element of the source. -/
theorem generalmapGrow_eq_generalmapMerge {cfg : MapCfg K V}
    {m : generalmap K V} {kk : Nat} (hsz : m.size = 2 ^ kk) :
    generalmapGrow cfg m
      = generalmapMerge cfg (generalmapInit cfg (2 * (m.size : Int))) m none := by
  have hdsize : (generalmapInit cfg (2 * (m.size : Int))).size = 2 * m.size := by
    have hcast : (2 * (m.size : Int)) = ((2 ^ (kk + 1) : Nat) : Int) := by
      rw [hsz]
      push_cast
      ring
    rw [hcast, generalmapInit_size_two_pow, hsz, pow_succ]
    ring
  have hdelts : (generalmapInit cfg (2 * (m.size : Int))).elements = 0 := rfl
  unfold generalmapGrow generalmapMerge
  rw [foldl_mergeStep_eq_of_room none (List.range m.size)]
  rw [hdelts, hdsize, List.length_range]
  omega

/-- The states reachable through the public interface: the structural
invariant, a power-of-two capacity, and a load factor of at most one
half. -/
def GoodMap (cfg : MapCfg K V) (m : generalmap K V) : Prop :=
  wf cfg m ∧ IsPow2 m.size ∧ 2 * m.elements ≤ m.size

/-- Full specification of `generalmapAdd` on reachable states. -/
theorem generalmapAdd_spec {cfg : MapCfg K V} {m : generalmap K V}
    {key : K} {value : Option V}
    (hg : GoodMap cfg m)
    (Hh : ∀ k' s, 0 < s → cfg.hashf k' s < s)
    (hk0 : key ≠ cfg.k0)
    (hw : (if cfg.hasValues then value else some cfg.vtrue).isSome = true) :
    GoodMap cfg (generalmapAdd cfg m key value).2 ∧
    m.size ≤ (generalmapAdd cfg m key value).2.size ∧
    (generalmapAdd cfg m key value).1 = (contents cfg m key).isSome ∧
    (generalmapAdd cfg m key value).2.elements
      = (if (contents cfg m key).isSome then m.elements else m.elements + 1) ∧
    (∀ k', contents cfg (generalmapAdd cfg m key value).2 k'
      = if k' = key then (if cfg.hasValues then value else some cfg.vtrue)
        else contents cfg m k') := by
  obtain ⟨hwf, ⟨kk, hky⟩, hload⟩ := hg
  have hpos : 0 < m.size := hwf.1
  have hel : m.elements ≤ m.size := wf_elements_le_size hwf
  have he_lt : m.elements < m.size := by omega
  simp only [generalmapAdd]
  by_cases hgrow : m.size ≤ 2 * m.elements + 1
  · rw [if_pos hgrow]
    obtain ⟨hwfg, hszg, heltsg, hcontg⟩ := generalmapGrow_spec hwf Hh hky
    have hroomg : (generalmapGrow cfg m).elements < (generalmapGrow cfg m).size := by
      rw [hszg, heltsg]
      omega
    have Hhg : ∀ k', cfg.hashf k' (generalmapGrow cfg m).size
        < (generalmapGrow cfg m).size := fun k' => Hh k' _ (by rw [hszg]; omega)
    obtain ⟨hwf1, hsz1, hflag1, helts1, hcont1⟩ :=
      generalmapAddNoGrow_spec hwfg Hhg hk0 hroomg hw
    have hb := (addNoGrow_elements_size cfg (generalmapGrow cfg m) key value).1
    rw [heltsg] at hb
    refine ⟨⟨hwf1, ⟨kk + 1, ?_⟩, ?_⟩, ?_, ?_, ?_, ?_⟩
    · rw [hsz1, hszg, hky, pow_succ]
      ring
    · rw [hsz1, hszg]
      omega
    · rw [hsz1, hszg]
      omega
    · rw [hflag1, hcontg key]
    · rw [helts1, hcontg key, heltsg]
    · intro k'
      rw [hcont1 k', hcontg k']
  · rw [if_neg hgrow]
    push_neg at hgrow
    have Hh0 : ∀ k', cfg.hashf k' m.size < m.size := fun k' => Hh k' _ hpos
    obtain ⟨hwf1, hsz1, hflag1, helts1, hcont1⟩ :=
      generalmapAddNoGrow_spec hwf Hh0 hk0 he_lt hw
    have hb := (addNoGrow_elements_size cfg m key value).1
    refine ⟨⟨hwf1, ⟨kk, by rw [hsz1, hky]⟩, ?_⟩, by rw [hsz1], hflag1, helts1, hcont1⟩
    rw [hsz1]
    omega

/-- The effect of the public `generalmapMerge` loop (with the full,
growing `generalmapAdd`) over any set of source slots. -/
theorem merge_fold_spec {cfg : MapCfg K V} {src : generalmap K V}
    (hwfs : wf cfg src) (Hh : ∀ k' s, 0 < s → cfg.hashf k' s < s) :
    ∀ (idxs : List Nat), (∀ i ∈ idxs, i < src.size) → idxs.Nodup →
    ∀ dest : generalmap K V, GoodMap cfg dest →
    GoodMap cfg (idxs.foldl (mergeStep cfg src none (generalmapAdd cfg)) dest) ∧
    (∀ k', (∀ i ∈ idxs, ¬(occupied src i = true ∧ src.keysStr.getD i cfg.k0 = k')) →
      contents cfg (idxs.foldl (mergeStep cfg src none (generalmapAdd cfg)) dest) k'
        = contents cfg dest k') ∧
    (∀ i ∈ idxs, occupied src i = true →
      contents cfg (idxs.foldl (mergeStep cfg src none (generalmapAdd cfg)) dest)
          (src.keysStr.getD i cfg.k0)
        = (if cfg.hasValues then src.values.getD i none else some cfg.vtrue)) := by
  have hwfs' := hwfs
  obtain ⟨hspos, hskl, hsvl, hshl, hsiff, hsdist, hscache, hscnt, hsprobe, hssent⟩ := hwfs'
  intro idxs
  induction idxs with
  | nil =>
    intro hbnd hnd dest hgd
    exact ⟨hgd, fun k' _ => rfl, by simp⟩
  | cons a t ih =>
    intro hbnd hnd dest hgd
    have hasize : a < src.size := hbnd a (by simp)
    have hndt : t.Nodup := (List.nodup_cons.mp hnd).2
    have hanotint : a ∉ t := (List.nodup_cons.mp hnd).1
    rw [List.foldl_cons]
    by_cases hka : src.keysStr.getD a cfg.k0 = cfg.k0
    · have hnocca : occupied src a = false := by
        rcases hoc : occupied src a with _ | _
        · rfl
        · exact absurd hka ((hsiff a hasize).mp hoc)
      have hstep : mergeStep cfg src none (generalmapAdd cfg) dest a = dest := by
        unfold mergeStep
        rw [if_pos (decide_eq_true hka)]
      rw [hstep]
      have := ih (fun i hi => hbnd i (by simp [hi])) hndt dest hgd
      refine ⟨this.1, ?_, ?_⟩
      · intro k' hk'
        exact this.2.1 k' fun i hi => hk' i (by simp [hi])
      · intro i hi ho
        rcases List.mem_cons.mp hi with rfl | hit
        · rw [hnocca] at ho
          exact absurd ho Bool.false_ne_true
        · exact this.2.2 i hit ho
    · have hocca : occupied src a = true := (hsiff a hasize).mpr hka
      have hstep : mergeStep cfg src none (generalmapAdd cfg) dest a
          = (generalmapAdd cfg dest (src.keysStr.getD a cfg.k0)
              (if cfg.hasValues then src.values.getD a none else none)).2 := by
        unfold mergeStep
        rw [if_neg (by rw [decide_eq_false hka]; exact Bool.false_ne_true)]
        rfl
      have hweff : (if cfg.hasValues then
          (if cfg.hasValues then src.values.getD a none else none)
          else some cfg.vtrue).isSome = true := by
        rcases hv : cfg.hasValues with _ | _
        · rw [if_neg Bool.false_ne_true]
          rfl
        · rw [if_pos rfl, if_pos rfl]
          unfold occupied at hocca
          exact hocca
      obtain ⟨hgd1, hszmono, hflag1, helts1, hcont1⟩ :=
        generalmapAdd_spec hgd Hh hka hweff
      rw [hstep]
      set dest1 := (generalmapAdd cfg dest (src.keysStr.getD a cfg.k0)
        (if cfg.hasValues then src.values.getD a none else none)).2 with hd1
      have hkeydistinct : ∀ i ∈ t, occupied src i = true →
          src.keysStr.getD i cfg.k0 ≠ src.keysStr.getD a cfg.k0 := by
        intro i hit hoi hkeq
        have hisize : i < src.size := hbnd i (by simp [hit])
        have := hsdist i hisize a hasize hoi hocca hkeq
        exact hanotint (this ▸ hit)
      have hres := ih (fun i hi => hbnd i (by simp [hi])) hndt dest1 hgd1
      refine ⟨hres.1, ?_, ?_⟩
      · intro k' hk'
        have hne_a : ¬(occupied src a = true ∧ src.keysStr.getD a cfg.k0 = k') :=
          hk' a (by simp)
        have hka_ne : src.keysStr.getD a cfg.k0 ≠ k' := fun h => hne_a ⟨hocca, h⟩
        rw [hres.2.1 k' fun i hi => hk' i (by simp [hi])]
        rw [hcont1, if_neg fun h => hka_ne h.symm]
      · intro i hi hoi
        rcases List.mem_cons.mp hi with rfl | hit
        · have huntouched : ∀ i' ∈ t,
              ¬(occupied src i' = true ∧ src.keysStr.getD i' cfg.k0
                = src.keysStr.getD i cfg.k0) := by
            intro i' hit' ⟨hoi', hkeq'⟩
            exact hkeydistinct i' hit' hoi' hkeq'
          rw [hres.2.1 _ huntouched]
          rw [hcont1, if_pos rfl]
          by_cases hv : cfg.hasValues = true
          · rw [if_pos hv, if_pos hv, if_pos hv]
          · rw [if_neg hv, if_neg hv]
        · exact hres.2.2 i hit hoi

/-- Full specification of `generalmapMerge` (no key duplication, matching
the plain `Merge` facades): the result realizes the union of the two
associations, the source winning on shared keys. -/
theorem generalmapMerge_spec {cfg : MapCfg K V} {dest src : generalmap K V}
    (hgd : GoodMap cfg dest) (hwfs : wf cfg src)
    (Hh : ∀ k' s, 0 < s → cfg.hashf k' s < s) :
    GoodMap cfg (generalmapMerge cfg dest src none) ∧
    (∀ k', contents cfg (generalmapMerge cfg dest src none) k'
      = if (contents cfg src k').isSome then contents cfg src k'
        else contents cfg dest k') := by
  have hwfs' := hwfs
  obtain ⟨hspos, hskl, hsvl, hshl, hsiff, hsdist, hscache, hscnt, hsprobe, hssent⟩ := hwfs'
  have hmain := merge_fold_spec hwfs Hh (List.range src.size)
    (fun i hi => List.mem_range.mp hi) (List.nodup_range src.size) dest hgd
  obtain ⟨hgood, huntouched, hslots⟩ := hmain
  have hmerge_eq : generalmapMerge cfg dest src none
      = (List.range src.size).foldl (mergeStep cfg src none (generalmapAdd cfg)) dest :=
    rfl
  rw [hmerge_eq]
  refine ⟨hgood, ?_⟩
  intro k'
  rcases hc : (List.range src.size).find?
      (fun i => occupied src i && decide (src.keysStr.getD i cfg.k0 = k')) with _ | i
  · have hcs : contents cfg src k' = none := by
      unfold contents
      rw [hc]
    have hnohit : ∀ i ∈ List.range src.size,
        ¬(occupied src i = true ∧ src.keysStr.getD i cfg.k0 = k') := by
      rintro i hi ⟨h1', h2'⟩
      have hpred : (occupied src i && decide (src.keysStr.getD i cfg.k0 = k')) = true := by
        rw [h1', decide_eq_true h2']
        rfl
      exact absurd hpred (List.find?_eq_none.mp hc i hi)
    rw [huntouched k' hnohit, hcs]
    rfl
  · have hpred := List.find?_some hc
    rw [Bool.and_eq_true] at hpred
    obtain ⟨hocc_i, hkeyb⟩ := hpred
    have hkey_i : src.keysStr.getD i cfg.k0 = k' := of_decide_eq_true hkeyb
    have hisize : i < src.size := List.mem_range.mp (List.mem_of_find?_eq_some hc)
    have hcs : contents cfg src k' = src.values.getD i none := by
      unfold contents
      rw [hc]
    have hcs_some : (contents cfg src k').isSome = true := by
      rw [hcs]
      unfold occupied at hocc_i
      exact hocc_i
    have := hslots i (List.mem_range.mpr hisize) hocc_i
    rw [hkey_i] at this
    rw [this, hcs_some, if_pos rfl, hcs]
    rcases hv : cfg.hasValues with _ | _
    · rw [if_neg Bool.false_ne_true]
      exact (hssent hv i hisize hocc_i).symm
    · rw [if_pos rfl]

theorem generalmapInit_size_eq (cfg : MapCfg K V) {x : Int}
    (h1 : 1 ≤ x) (h2 : x ≤ 2 ^ 62) :
    (generalmapInit cfg x).size = 2 ^ (x.toNat - 1).size := by
  rw [generalmapInit_size]
  have hx : x = ((x.toNat : Nat) : Int) := (Int.toNat_of_nonneg (by omega)).symm
  rw [hx, pow2ize_natCast x.toNat (by omega) (by omega)]
  exact Int.toNat_natCast _

theorem GoodMap_generalmapInit (cfg : MapCfg K V) {x : Int}
    (h1 : 1 ≤ x) (h2 : x ≤ 2 ^ 62) :
    GoodMap cfg (generalmapInit cfg x) := by
  have hsz := generalmapInit_size_eq cfg h1 h2
  have hp : 1 ≤ 2 ^ (x.toNat - 1).size := Nat.one_le_two_pow
  refine ⟨wf_generalmapInit cfg x ?_, ⟨_, hsz⟩, ?_⟩
  · rw [← generalmapInit_size cfg x, hsz]
    omega
  · have he : (generalmapInit cfg x).elements = 0 := rfl
    rw [he]
    omega

/-- A sequence of map-facade `Add` calls, in order. -/
def addList (cfg : MapCfg K V) (m : generalmap K V) (l : List (K × V)) :
    generalmap K V :=
  l.foldl (fun m kv => (generalmapAdd cfg m kv.1 (some kv.2)).2) m

/-- The cumulative effect of a sequence of `Add`s with pairwise-distinct
nonzero keys that are all fresh for the starting table. -/
theorem addList_spec {cfg : MapCfg K V} (hval : cfg.hasValues = true)
    (Hh : ∀ k' s, 0 < s → cfg.hashf k' s < s) :
    ∀ (l : List (K × V)) (m : generalmap K V), GoodMap cfg m →
    (∀ kv ∈ l, kv.1 ≠ cfg.k0) → (l.map Prod.fst).Nodup →
    (∀ kv ∈ l, contents cfg m kv.1 = none) →
    GoodMap cfg (addList cfg m l) ∧
    (addList cfg m l).elements = m.elements + l.length ∧
    (∀ kv ∈ l, contents cfg (addList cfg m l) kv.1 = some kv.2) ∧
    (∀ k', (∀ kv ∈ l, kv.1 ≠ k') →
      contents cfg (addList cfg m l) k' = contents cfg m k') := by
  intro l
  induction l with
  | nil =>
    intro m hg _ _ _
    exact ⟨hg, by simp [addList], by simp, fun k' _ => rfl⟩
  | cons a t ih =>
    intro m hg hk0s hnd hfresh
    have hk0a : a.1 ≠ cfg.k0 := hk0s a (by simp)
    have hwa : (if cfg.hasValues then some a.2 else some cfg.vtrue).isSome = true := by
      rw [if_pos hval]
      rfl
    obtain ⟨hg1, hszmono, hflag1, helts1, hcont1⟩ := generalmapAdd_spec hg Hh hk0a hwa
    have hfresha : contents cfg m a.1 = none := hfresh a (by simp)
    have heq : addList cfg m (a :: t)
        = addList cfg (generalmapAdd cfg m a.1 (some a.2)).2 t := rfl
    rw [heq]
    set m1 := (generalmapAdd cfg m a.1 (some a.2)).2 with hm1
    have helts1' : m1.elements = m.elements + 1 := by
      rw [helts1, hfresha]
      rfl
    have hndt : (t.map Prod.fst).Nodup := by
      rw [List.map_cons] at hnd
      exact (List.nodup_cons.mp hnd).2
    have hanotint : a.1 ∉ t.map Prod.fst := by
      rw [List.map_cons] at hnd
      exact (List.nodup_cons.mp hnd).1
    have hfresht : ∀ kv ∈ t, contents cfg m1 kv.1 = none := by
      intro kv hkv
      have hne : kv.1 ≠ a.1 := by
        intro h
        exact hanotint (h ▸ List.mem_map_of_mem Prod.fst hkv)
      rw [hcont1, if_neg hne]
      exact hfresh kv (by simp [hkv])
    obtain ⟨hgf, heltsf, hslotsf, huntf⟩ := ih m1 hg1
      (fun kv hkv => hk0s kv (by simp [hkv])) hndt hfresht
    refine ⟨hgf, ?_, ?_, ?_⟩
    · rw [heltsf, helts1', List.length_cons]
      omega
    · intro kv hkv
      rcases List.mem_cons.mp hkv with rfl | hkvt
      · have huntouched : ∀ kv' ∈ t, kv'.1 ≠ kv.1 := by
          intro kv' hkv' h
          exact hanotint (h ▸ List.mem_map_of_mem Prod.fst hkv')
        rw [huntf kv.1 huntouched, hcont1, if_pos rfl, if_pos hval]
      · exact hslotsf kv hkvt
    · intro k' hunt
      have hne : a.1 ≠ k' := hunt a (by simp)
      rw [huntf k' fun kv hkv => hunt kv (by simp [hkv]), hcont1, if_neg fun h => hne h.symm]

/-- `hashint` masks with `mapsize - 1`, so it always lands inside a
positive table. -/
theorem hashint_lt (e s : Nat) (hs : 0 < s) : hashint e s < s := by
  calc hashint e s ≤ s - 1 := Nat.and_le_right
  _ < s := by omega

/-- On a freshly initialized table the membership test is false for every
key other than the zero key - but only for those (see the C6
counterexample: the zero key matches the zeroed slots). -/
theorem generalmapTest_init_false (cfg : MapCfg K V) (x : Int) (k : K)
    (hk0 : k ≠ cfg.k0) :
    generalmapTest cfg (generalmapInit cfg x) k = false := by
  simp only [generalmapTest]
  unfold generalmapIsMatch
  have hkey : ∀ i, (generalmapInit cfg x).keysStr.getD i cfg.k0 = cfg.k0 := by
    intro i
    unfold generalmapInit
    dsimp only
    exact getD_replicate_self
  rw [hkey]
  by_cases hcmp : cfg.useCmp = true
  · rw [if_pos hcmp,
      decide_eq_false (show ¬ cfg.k0 = k from fun h => hk0 h.symm), Bool.and_false]
  · rw [if_neg hcmp]
    exact decide_eq_false (show ¬ cfg.k0 = k from fun h => hk0 h.symm)

theorem mergeStep_addNoGrow_size (cfg : MapCfg K V) (src : generalmap K V)
    (dup : Option (K → K)) (dest : generalmap K V) (i : Nat) :
    (mergeStep cfg src dup (generalmapAddNoGrow cfg) dest i).size = dest.size := by
  unfold mergeStep
  split
  · rfl
  · dsimp only
    exact (addNoGrow_elements_size cfg dest _ _).2

theorem foldl_mergeStep_size (cfg : MapCfg K V) (src : generalmap K V)
    (dup : Option (K → K)) :
    ∀ (idxs : List Nat) (dest : generalmap K V),
    (idxs.foldl (mergeStep cfg src dup (generalmapAddNoGrow cfg)) dest).size
      = dest.size := by
  intro idxs
  induction idxs with
  | nil => intro dest; rfl
  | cons a t ih =>
    intro dest
    rw [List.foldl_cons, ih, mergeStep_addNoGrow_size]

theorem generalmapGrow_size {cfg : MapCfg K V} {m : generalmap K V} {kk : Nat}
    (h : m.size = 2 ^ kk) : (generalmapGrow cfg m).size = 2 ^ (kk + 1) := by
  unfold generalmapGrow
  rw [foldl_mergeStep_size]
  have hcast : (2 * (m.size : Int)) = ((2 ^ (kk + 1) : Nat) : Int) := by
    rw [h]
    push_cast
    ring
  rw [hcast, generalmapInit_size_two_pow]

theorem add_size_IsPow2 (cfg : MapCfg K V) (m : generalmap K V) (key : K)
    (value : Option V) (h : IsPow2 m.size) :
    IsPow2 (generalmapAdd cfg m key value).2.size := by
  obtain ⟨k, hk⟩ := h
  simp only [generalmapAdd]
  by_cases htr : m.size ≤ 2 * m.elements + 1
  · rw [if_pos htr, (addNoGrow_elements_size cfg _ _ _).2]
    exact ⟨k + 1, generalmapGrow_size hk⟩
  · rw [if_neg htr, (addNoGrow_elements_size cfg _ _ _).2]
    exact ⟨k, hk⟩

theorem merge_size_IsPow2 (cfg : MapCfg K V) (src : generalmap K V)
    (dup : Option (K → K)) :
    ∀ (idxs : List Nat) (dest : generalmap K V), IsPow2 dest.size →
    IsPow2 ((idxs.foldl (mergeStep cfg src dup (generalmapAdd cfg)) dest).size) := by
  intro idxs
  induction idxs with
  | nil => intro dest h; exact h
  | cons a t ih =>
    intro dest h
    rw [List.foldl_cons]
    apply ih
    unfold mergeStep
    split
    · exact h
    · dsimp only
      exact add_size_IsPow2 cfg dest _ _ h

/-! ### The claims -/

/-- A concrete intmap configuration used in counterexamples and witnesses:
integer keys, no comparator, real values (`1` models the C `(void*) true`
sentinel, which the map facade never stores). -/
def intCfg : MapCfg Nat Nat := intmapCfg Nat 1

/-- Claim C1 counterexample: on a fresh intmap, the two `Add`s of the
pairwise-distinct keys 0 and 3 leave `count = 1`, not 2, and the lookup of
key 0 returns null rather than its stored value 7: the growth triggered by
the second `Add` silently drops the key 0, because `generalmapMerge` skips
every slot whose key equals the calloc zero. -/
theorem C1_counterexample :
    (addList intCfg (generalmapInit intCfg 1) [(0, 7), (3, 8)]).elements = 1 ∧
    generalmapMap intCfg (addList intCfg (generalmapInit intCfg 1) [(0, 7), (3, 8)]) 0
      = none := by
  decide

/-- Claim C1 (amended: keys must additionally be nonzero - the integer 0 /
null string is the engine's empty-slot marker - values non-null, and the
size hint positive and in machine range): for every sequence of `N` `Add`
calls with pairwise-distinct keys on a freshly initialized map, `count`
equals `N` afterward, and for every inserted key, `Lookup` of that key
returns exactly the last value stored for that key. -/
theorem C1_add_sequence {K V : Type} [DecidableEq K] (cfg : MapCfg K V)
    (hval : cfg.hasValues = true)
    (Hh : ∀ k s, 0 < s → cfg.hashf k s < s)
    (sizeHint : Int) (hs1 : 1 ≤ sizeHint) (hs2 : sizeHint ≤ 2 ^ 62)
    (l : List (K × V)) (hk0 : ∀ kv ∈ l, kv.1 ≠ cfg.k0)
    (hnd : (l.map Prod.fst).Nodup) :
    (addList cfg (generalmapInit cfg sizeHint) l).elements = l.length ∧
    ∀ kv ∈ l, generalmapMap cfg (addList cfg (generalmapInit cfg sizeHint) l) kv.1
      = some kv.2 := by
  have hg0 := GoodMap_generalmapInit cfg hs1 hs2
  have hfresh : ∀ kv ∈ l, contents cfg (generalmapInit cfg sizeHint) kv.1 = none :=
    fun kv _ => contents_generalmapInit cfg _ _
  obtain ⟨hgf, helts, hslots, -⟩ := addList_spec hval Hh l _ hg0 hk0 hnd hfresh
  constructor
  · rw [helts]
    have h0 : (generalmapInit cfg sizeHint).elements = 0 := rfl
    omega
  · intro kv hkv
    have hwff := hgf.1
    rw [generalmapMap_eq_contents hwff (Hh _ _ hwff.1) (hk0 kv hkv)]
    exact hslots kv hkv

/-- Claim C1 witness at a concrete instance. -/
theorem C1_witness :
    (addList intCfg (generalmapInit intCfg 2) [(1, 5), (2, 6)]).elements = 2 ∧
    generalmapMap intCfg (addList intCfg (generalmapInit intCfg 2) [(1, 5), (2, 6)]) 1
      = some 5 ∧
    generalmapMap intCfg (addList intCfg (generalmapInit intCfg 2) [(1, 5), (2, 6)]) 2
      = some 6 := by
  have h := C1_add_sequence intCfg rfl (fun k s hs => hashint_lt k s hs) 2
    (by norm_num) (by norm_num) [(1, 5), (2, 6)] (by decide) (by decide)
  exact ⟨h.1, h.2 (1, 5) (by decide), h.2 (2, 6) (by decide)⟩

/-- Claim C2 counterexample: `Init(3)` gives capacity 4; two `Add`s of
distinct fresh keys leave `count = 2`, and `2*2 + 1 = 5 < 4` is false, so
the claimed invariant does not hold after every `Add`. -/
theorem C2_counterexample :
    (addList intCfg (generalmapInit intCfg 3) [(1, 5), (2, 6)]).elements = 2 ∧
    (addList intCfg (generalmapInit intCfg 3) [(1, 5), (2, 6)]).size = 4 ∧
    ¬ (2 * 2 + 1 < 4) := by
  decide

/-- Claim C2 (amended: after every `Add` the load factor is at most one
half, `2*count ≤ capacity`; the strict bound `2*count + 1 < capacity`
holds for the table into which the key is actually inserted, i.e. it is
re-established before any insertion that would violate it; and the growth
that re-establishes it exactly doubles the capacity). -/
theorem C2_load_factor {K V : Type} [DecidableEq K] (cfg : MapCfg K V)
    (m : generalmap K V) (key : K) (value : Option V)
    (hg : GoodMap cfg m)
    (Hh : ∀ k s, 0 < s → cfg.hashf k s < s)
    (hk0 : key ≠ cfg.k0)
    (hw : (if cfg.hasValues then value else some cfg.vtrue).isSome = true) :
    2 * (generalmapAdd cfg m key value).2.elements
      ≤ (generalmapAdd cfg m key value).2.size ∧
    2 * (if m.size ≤ 2 * m.elements + 1 then generalmapGrow cfg m else m).elements + 1
      < (if m.size ≤ 2 * m.elements + 1 then generalmapGrow cfg m else m).size ∧
    (m.size ≤ 2 * m.elements + 1 → (generalmapGrow cfg m).size = 2 * m.size) := by
  obtain ⟨hg', hszm, -, -, -⟩ := generalmapAdd_spec hg Hh hk0 hw
  obtain ⟨hwf, ⟨kk, hky⟩, hload⟩ := hg
  have hpos : 0 < m.size := hwf.1
  have hel : m.elements ≤ m.size := wf_elements_le_size hwf
  have he_lt : m.elements < m.size := by omega
  obtain ⟨hwfg, hszg, heltsg, -⟩ := generalmapGrow_spec hwf Hh hky
  refine ⟨hg'.2.2, ?_, fun _ => hszg⟩
  by_cases htr : m.size ≤ 2 * m.elements + 1
  · rw [if_pos htr, hszg, heltsg]
    omega
  · rw [if_neg htr]
    omega

/-- Claim C2 witness at a concrete instance. -/
theorem C2_witness :
    2 * (generalmapAdd intCfg (generalmapInit intCfg 4) 1 (some 5)).2.elements
      ≤ (generalmapAdd intCfg (generalmapInit intCfg 4) 1 (some 5)).2.size ∧
    2 * (if (generalmapInit intCfg 4).size
          ≤ 2 * (generalmapInit intCfg 4).elements + 1 then
        generalmapGrow intCfg (generalmapInit intCfg 4)
      else generalmapInit intCfg 4).elements + 1
      < (if (generalmapInit intCfg 4).size
          ≤ 2 * (generalmapInit intCfg 4).elements + 1 then
        generalmapGrow intCfg (generalmapInit intCfg 4)
      else generalmapInit intCfg 4).size ∧
    ((generalmapInit intCfg 4).size ≤ 2 * (generalmapInit intCfg 4).elements + 1 →
      (generalmapGrow intCfg (generalmapInit intCfg 4)).size
        = 2 * (generalmapInit intCfg 4).size) :=
  C2_load_factor intCfg (generalmapInit intCfg 4) 1 (some 5)
    ⟨by decide, ⟨2, by decide⟩, by decide⟩
    (fun k s hs => hashint_lt k s hs) (by decide) (by decide)

/-- Claim C3 counterexample: the intmap key 0 is stored and retrievable
(`Lookup` returns its value 7), the next `Add` triggers the capacity
doubling (the growth condition holds), and afterwards the lookup of key 0
returns null: the growth's merge skips every slot whose key equals the
calloc zero, so it does not preserve all mappings. -/
theorem C3_counterexample :
    generalmapMap intCfg (intmapAdd 1 (intmapInit Nat 1 1) 0 (some 7)).2 0 = some 7 ∧
    (intmapAdd 1 (intmapInit Nat 1 1) 0 (some 7)).2.size
      ≤ 2 * (intmapAdd 1 (intmapInit Nat 1 1) 0 (some 7)).2.elements + 1 ∧
    generalmapMap intCfg
      (intmapAdd 1 (intmapAdd 1 (intmapInit Nat 1 1) 0 (some 7)).2 3 (some 8)).2 0
      = none := by
  decide

/-- Claim C3 (amended: for nonzero keys - the zero / null key doubles as the
empty-slot marker and is dropped by growth): when an `Add` triggers the
capacity doubling, the capacity exactly doubles and every other nonzero
key's lookup is unchanged, so every key inserted before the growth is still
retrievable afterward with its original value. -/
theorem C3_grow_preserves {K V : Type} [DecidableEq K] (cfg : MapCfg K V)
    (m : generalmap K V) (key : K) (value : Option V)
    (hg : GoodMap cfg m)
    (Hh : ∀ k' s, 0 < s → cfg.hashf k' s < s)
    (hk0 : key ≠ cfg.k0)
    (hw : (if cfg.hasValues then value else some cfg.vtrue).isSome = true)
    (htrigger : m.size ≤ 2 * m.elements + 1) :
    (generalmapAdd cfg m key value).2.size = 2 * m.size ∧
    ∀ k', k' ≠ cfg.k0 → k' ≠ key →
      generalmapMap cfg (generalmapAdd cfg m key value).2 k'
        = generalmapMap cfg m k' := by
  obtain ⟨hga, hszle, hflag, helts, hcont⟩ := generalmapAdd_spec hg Hh hk0 hw
  obtain ⟨hwf, ⟨kk, hky⟩, hload⟩ := hg
  constructor
  · simp only [generalmapAdd]
    rw [if_pos htrigger, (addNoGrow_elements_size cfg _ _ _).2,
      generalmapGrow_size hky, hky, pow_succ]
    ring
  · intro k' hk'0 hk'ne
    have hwf' := hga.1
    have hpos' : 0 < (generalmapAdd cfg m key value).2.size := hwf'.1
    rw [generalmapMap_eq_contents hwf' (Hh _ _ hpos') hk'0,
      generalmapMap_eq_contents hwf (Hh _ _ hwf.1) hk'0,
      hcont k', if_neg hk'ne]

/-- Claim C3 witness at a concrete instance: adding to a full-enough fresh
table doubles the capacity and preserves the (empty) lookup of key 2. -/
theorem C3_witness :
    (generalmapAdd intCfg (generalmapInit intCfg 1) 1 (some 5)).2.size
      = 2 * (generalmapInit intCfg 1).size ∧
    generalmapMap intCfg (generalmapAdd intCfg (generalmapInit intCfg 1) 1 (some 5)).2 2
      = generalmapMap intCfg (generalmapInit intCfg 1) 2 := by
  have h := C3_grow_preserves intCfg (generalmapInit intCfg 1) 1 (some 5)
    ⟨by decide, ⟨0, by decide⟩, by decide⟩ (fun k s hs => hashint_lt k s hs)
    (by decide) (by decide) (by decide)
  exact ⟨h.1, h.2 2 (by decide) (by decide)⟩

/-- Claim C4 counterexample: the source table holds exactly the key 0 with
value 7, the destination is empty (disjoint key sets), yet after
`Merge(dest, src)` the destination is still empty and the lookup of key 0
returns null instead of the union's value 7: `Merge` skips every source
slot whose key equals the calloc zero, so it does not re-add every
occupied slot of `src`. -/
theorem C4_counterexample :
    generalmapMap intCfg (intmapAdd 1 (intmapInit Nat 1 1) 0 (some 7)).2 0 = some 7 ∧
    (generalmapMerge intCfg (intmapInit Nat 1 2)
      (intmapAdd 1 (intmapInit Nat 1 1) 0 (some 7)).2 none).elements = 0 ∧
    generalmapMap intCfg (generalmapMerge intCfg (intmapInit Nat 1 2)
      (intmapAdd 1 (intmapInit Nat 1 1) 0 (some 7)).2 none) 0 = none := by
  decide

/-- Claim C4 (amended: for nonzero keys - source slots holding the zero key
are skipped): after `Merge(dest, src)` the result is again a reachable
table and every nonzero key's lookup is the union of the two tables'
lookups, with `src` winning on keys present in both. -/
theorem C4_merge_union {K V : Type} [DecidableEq K] (cfg : MapCfg K V)
    (dest src : generalmap K V)
    (hgd : GoodMap cfg dest) (hwfs : wf cfg src)
    (Hh : ∀ k' s, 0 < s → cfg.hashf k' s < s) :
    GoodMap cfg (generalmapMerge cfg dest src none) ∧
    ∀ k, k ≠ cfg.k0 →
      generalmapMap cfg (generalmapMerge cfg dest src none) k
        = if (generalmapMap cfg src k).isSome then generalmapMap cfg src k
          else generalmapMap cfg dest k := by
  obtain ⟨hgm, hcont⟩ := generalmapMerge_spec hgd hwfs Hh
  refine ⟨hgm, ?_⟩
  intro k hk0
  have hwfm := hgm.1
  have hwfd := hgd.1
  rw [generalmapMap_eq_contents hwfm (Hh _ _ hwfm.1) hk0,
    generalmapMap_eq_contents hwfs (Hh _ _ hwfs.1) hk0,
    generalmapMap_eq_contents hwfd (Hh _ _ hwfd.1) hk0,
    hcont k]

/-- Claim C4 witness at a concrete instance: destination holds 1 ↦ 5,
source holds 2 ↦ 6; the merged lookups at keys 1 and 2 are the src-wins
union of the two tables' lookups. -/
theorem C4_witness :
    (generalmapMap intCfg (generalmapMerge intCfg
        (intmapAdd 1 (intmapInit Nat 1 2) 1 (some 5)).2
        (intmapAdd 1 (intmapInit Nat 1 2) 2 (some 6)).2 none) 1
      = if (generalmapMap intCfg (intmapAdd 1 (intmapInit Nat 1 2) 2 (some 6)).2 1).isSome
          then generalmapMap intCfg (intmapAdd 1 (intmapInit Nat 1 2) 2 (some 6)).2 1
          else generalmapMap intCfg (intmapAdd 1 (intmapInit Nat 1 2) 1 (some 5)).2 1) ∧
    (generalmapMap intCfg (generalmapMerge intCfg
        (intmapAdd 1 (intmapInit Nat 1 2) 1 (some 5)).2
        (intmapAdd 1 (intmapInit Nat 1 2) 2 (some 6)).2 none) 2
      = if (generalmapMap intCfg (intmapAdd 1 (intmapInit Nat 1 2) 2 (some 6)).2 2).isSome
          then generalmapMap intCfg (intmapAdd 1 (intmapInit Nat 1 2) 2 (some 6)).2 2
          else generalmapMap intCfg (intmapAdd 1 (intmapInit Nat 1 2) 1 (some 5)).2 2) := by
  have h := C4_merge_union intCfg
    (intmapAdd 1 (intmapInit Nat 1 2) 1 (some 5)).2
    (intmapAdd 1 (intmapInit Nat 1 2) 2 (some 6)).2
    ⟨by decide, ⟨1, by decide⟩, by decide⟩ (by decide)
    (fun k s hs => hashint_lt k s hs)
  exact ⟨h.2 1 (by decide), h.2 2 (by decide)⟩

/-- Claim C5 counterexample: the intmap key 0 is present with value 7, yet
re-`Add`-ing it reports `alreadyPresent = false`: the re-insertion happens
to trigger growth, the growth's merge drops the key 0, and the subsequent
probe finds an empty slot. -/
theorem C5_counterexample :
    generalmapMap intCfg (intmapAdd 1 (intmapInit Nat 1 1) 0 (some 7)).2 0 = some 7 ∧
    (intmapAdd 1 (intmapAdd 1 (intmapInit Nat 1 1) 0 (some 7)).2 0 (some 9)).1
      = false := by
  decide

/-- Claim C5 (amended: for nonzero keys): `Add` returns `alreadyPresent`
exactly when the key's lookup was non-null beforehand, leaves `count`
unchanged in that case and increments it by one otherwise, and afterwards
the key's lookup is the value just stored (the set sentinel for sets) - so
a duplicate key is never an error, only signaled through the returned
boolean, and the engine always overwrites. -/
theorem C5_add_flag {K V : Type} [DecidableEq K] (cfg : MapCfg K V)
    (m : generalmap K V) (key : K) (value : Option V)
    (hg : GoodMap cfg m)
    (Hh : ∀ k' s, 0 < s → cfg.hashf k' s < s)
    (hk0 : key ≠ cfg.k0)
    (hw : (if cfg.hasValues then value else some cfg.vtrue).isSome = true) :
    (generalmapAdd cfg m key value).1 = (generalmapMap cfg m key).isSome ∧
    (generalmapAdd cfg m key value).2.elements
      = (if (generalmapMap cfg m key).isSome then m.elements else m.elements + 1) ∧
    generalmapMap cfg (generalmapAdd cfg m key value).2 key
      = (if cfg.hasValues then value else some cfg.vtrue) := by
  obtain ⟨hga, hszle, hflag, helts, hcont⟩ := generalmapAdd_spec hg Hh hk0 hw
  have hwf := hg.1
  have hmeq := generalmapMap_eq_contents hwf (Hh _ _ hwf.1) hk0
  have hwfa := hga.1
  have hmeqa := generalmapMap_eq_contents hwfa (Hh _ _ hwfa.1) hk0
  refine ⟨?_, ?_, ?_⟩
  · rw [hmeq, hflag]
  · rw [hmeq, helts]
  · rw [hmeqa, hcont key, if_pos rfl]

/-- Claim C5 witness at a concrete instance: re-adding the present key 1
(no growth involved) reports it present, keeps the count, and overwrites
the value. -/
theorem C5_witness :
    (generalmapAdd intCfg (intmapAdd 1 (intmapInit Nat 1 4) 1 (some 5)).2 1 (some 9)).1
      = (generalmapMap intCfg (intmapAdd 1 (intmapInit Nat 1 4) 1 (some 5)).2 1).isSome ∧
    (generalmapAdd intCfg
        (intmapAdd 1 (intmapInit Nat 1 4) 1 (some 5)).2 1 (some 9)).2.elements
      = (if (generalmapMap intCfg (intmapAdd 1 (intmapInit Nat 1 4) 1 (some 5)).2 1).isSome
          then (intmapAdd 1 (intmapInit Nat 1 4) 1 (some 5)).2.elements
          else (intmapAdd 1 (intmapInit Nat 1 4) 1 (some 5)).2.elements + 1) ∧
    generalmapMap intCfg
        (generalmapAdd intCfg (intmapAdd 1 (intmapInit Nat 1 4) 1 (some 5)).2 1 (some 9)).2 1
      = (if intCfg.hasValues then some 9 else some intCfg.vtrue) :=
  C5_add_flag intCfg (intmapAdd 1 (intmapInit Nat 1 4) 1 (some 5)).2 1 (some 9)
    ⟨by decide, ⟨2, by decide⟩, by decide⟩ (fun k s hs => hashint_lt k s hs)
    (by decide) (by decide)

/-- Claim C6 counterexample: on a freshly initialized intset with no `Add`s
(zero elements), the membership test of the element 0 reports found: the
zero key stored in every calloc-zeroed slot matches the probed key 0, so
not every lookup on a fresh table reports absent. -/
theorem C6_counterexample :
    (intsetInit 1).elements = 0 ∧
    intsetTest (intsetInit 1) 0 = true := by
  decide

/-- Claim C6 (amended: for comparator-free configurations - the integer
facades - and nonzero keys): the match test is the plain stored-key
comparison, `Map` and `Test` are pure lookups of the abstract contents -
`Map` returns the stored value when the key is present and null otherwise,
`Test` returns true exactly when the key is present - and on a freshly
initialized table `Map` returns null for every key and `Test` is false
for every nonzero key.  (In this embedding both operations are functions
of the table, so they cannot mutate it.)  With a comparator no such claim
is made: the C evaluates the match test at the empty slot where `Find`
stopped, and for an absent key whose probe hash is 0 the calloc-zeroed
cached hash passes the hash conjunct and `cmp(NULL, key)` is undefined
behavior. -/
theorem C6_pure_lookup {K V : Type} [DecidableEq K] (cfg : MapCfg K V)
    (m : generalmap K V) (k : K) (x : Int)
    (hcmp : cfg.useCmp = false)
    (hwf : wf cfg m)
    (Hh : ∀ k' s, 0 < s → cfg.hashf k' s < s)
    (hk0 : k ≠ cfg.k0) :
    (∀ i, generalmapIsMatch cfg m i k (cfg.hashf k m.size)
      = decide (m.keysStr.getD i cfg.k0 = k)) ∧
    generalmapMap cfg m k = contents cfg m k ∧
    generalmapTest cfg m k = (contents cfg m k).isSome ∧
    generalmapMap cfg (generalmapInit cfg x) k = none ∧
    generalmapTest cfg (generalmapInit cfg x) k = false :=
  ⟨fun i => by
    unfold generalmapIsMatch
    rw [hcmp, if_neg Bool.false_ne_true],
   generalmapMap_eq_contents hwf (Hh _ _ hwf.1) hk0,
   generalmapTest_eq_contents hwf (Hh _ _ hwf.1) hk0,
   generalmapMap_init cfg x k,
   generalmapTest_init_false cfg x k hk0⟩

/-- Claim C6 witness at a concrete instance. -/
theorem C6_witness :
    generalmapIsMatch intCfg (intmapAdd 1 (intmapInit Nat 1 2) 1 (some 5)).2 0 1
        (intCfg.hashf 1 (intmapAdd 1 (intmapInit Nat 1 2) 1 (some 5)).2.size)
      = decide ((intmapAdd 1 (intmapInit Nat 1 2) 1 (some 5)).2.keysStr.getD 0
          intCfg.k0 = 1) ∧
    generalmapMap intCfg (intmapAdd 1 (intmapInit Nat 1 2) 1 (some 5)).2 1
      = contents intCfg (intmapAdd 1 (intmapInit Nat 1 2) 1 (some 5)).2 1 ∧
    generalmapTest intCfg (intmapAdd 1 (intmapInit Nat 1 2) 1 (some 5)).2 1
      = (contents intCfg (intmapAdd 1 (intmapInit Nat 1 2) 1 (some 5)).2 1).isSome ∧
    generalmapMap intCfg (generalmapInit intCfg 3) 1 = none ∧
    generalmapTest intCfg (generalmapInit intCfg 3) 1 = false := by
  have h := C6_pure_lookup intCfg (intmapAdd 1 (intmapInit Nat 1 2) 1 (some 5)).2 1 3
    (by decide) (by decide) (fun k s hs => hashint_lt k s hs) (by decide)
  exact ⟨h.1 0, h.2.1, h.2.2.1, h.2.2.2.1, h.2.2.2.2⟩

/-- Claim C7 counterexample: `Init(0)` leaves `capacity = 0`, and zero is
not a power of two, so the capacity is not a power of two immediately
after every `Init`. -/
theorem C7_counterexample :
    (generalmapInit intCfg 0).size = 0 ∧ ¬ IsPow2 (generalmapInit intCfg 0).size := by
  refine ⟨rfl, ?_⟩
  rintro ⟨k, hk⟩
  have h0 : (generalmapInit intCfg 0).size = 0 := rfl
  rw [h0] at hk
  exact (Nat.two_pow_pos k).ne' hk.symm

/-- Claim C7 (amended: for a size hint between 1 and 2^62 - `pow2ize`
returns 0 for hints below 1 and overflows above the machine word): the
capacity is a power of two immediately after `Init`, and being a power of
two is preserved by every `Add` and every `Merge` (for any duplication
callback). -/
theorem C7_capacity_pow2 {K V : Type} [DecidableEq K] (cfg : MapCfg K V)
    (x : Int) (h1 : 1 ≤ x) (h2 : x ≤ 2 ^ 62)
    (m dest src : generalmap K V) (key : K) (value : Option V)
    (dup : Option (K → K))
    (hm : IsPow2 m.size) (hd : IsPow2 dest.size) :
    IsPow2 (generalmapInit cfg x).size ∧
    IsPow2 (generalmapAdd cfg m key value).2.size ∧
    IsPow2 (generalmapMerge cfg dest src dup).size :=
  ⟨⟨_, generalmapInit_size_eq cfg h1 h2⟩,
   add_size_IsPow2 cfg m key value hm,
   merge_size_IsPow2 cfg src dup (List.range src.size) dest hd⟩

/-- Claim C7 witness at a concrete instance. -/
theorem C7_witness :
    IsPow2 (generalmapInit intCfg 3).size ∧
    IsPow2 (generalmapAdd intCfg (generalmapInit intCfg 2) 1 (some 5)).2.size ∧
    IsPow2 (generalmapMerge intCfg (generalmapInit intCfg 2)
      (generalmapInit intCfg 1) none).size :=
  C7_capacity_pow2 intCfg 3 (by norm_num) (by norm_num)
    (generalmapInit intCfg 2) (generalmapInit intCfg 2) (generalmapInit intCfg 1)
    1 (some 5) none ⟨1, by decide⟩ ⟨1, by decide⟩

/-- Claim C8 counterexample: `Init(0)` and `Init(-5)` both set the capacity
to 0, not to the claimed minimum of 1: `pow2ize` maps every input below 1
to 0 (for a negative input the arithmetic right shifts smear the sign bit
and `x - 1` ends as -1, so adding 1 gives 0). -/
theorem C8_counterexample :
    (generalmapInit intCfg 0).size = 0 ∧ (generalmapInit intCfg (-5)).size = 0 := by
  decide

/-- Claim C8 (amended: for a size hint between 1 and 2^62; below 1 the
capacity is 0, not 1): `Init(sizeHint)` sets the capacity to `sizeHint`
rounded up to the least power of two at least `sizeHint`, leaves the count
zero, and fills the parallel arrays with zeroes (null keys, null values,
zero cached hashes - the hash array only when a comparator is used). -/
theorem C8_init_rounds {K V : Type} [DecidableEq K] (cfg : MapCfg K V) (x : Int)
    (h1 : 1 ≤ x) (h2 : x ≤ 2 ^ 62) :
    IsPow2 (generalmapInit cfg x).size ∧
    x.toNat ≤ (generalmapInit cfg x).size ∧
    (∀ j, x.toNat ≤ 2 ^ j → (generalmapInit cfg x).size ≤ 2 ^ j) ∧
    (generalmapInit cfg x).elements = 0 ∧
    (generalmapInit cfg x).keysStr
      = List.replicate (generalmapInit cfg x).size cfg.k0 ∧
    (generalmapInit cfg x).values
      = List.replicate (generalmapInit cfg x).size (none : Option V) ∧
    (generalmapInit cfg x).hashes
      = (if cfg.useCmp then List.replicate (generalmapInit cfg x).size 0 else []) := by
  have hsz := generalmapInit_size_eq cfg h1 h2
  refine ⟨⟨_, hsz⟩, ?_, ?_, rfl, rfl, rfl, rfl⟩
  · rw [hsz]
    exact le_two_pow_size_sub_one x.toNat
  · intro j hj
    rw [hsz]
    exact two_pow_size_sub_one_le hj

/-- Claim C8 witness at a concrete instance: `Init(5)` rounds the capacity
up to 8 (a power of two, at least 5, at most the next bound 2^3). -/
theorem C8_witness :
    IsPow2 (generalmapInit intCfg 5).size ∧
    (5 : Int).toNat ≤ (generalmapInit intCfg 5).size ∧
    (generalmapInit intCfg 5).size ≤ 2 ^ 3 ∧
    (generalmapInit intCfg 5).elements = 0 ∧
    (generalmapInit intCfg 5).keysStr
      = List.replicate (generalmapInit intCfg 5).size 0 ∧
    (generalmapInit intCfg 5).values
      = List.replicate (generalmapInit intCfg 5).size (none : Option Nat) ∧
    (generalmapInit intCfg 5).hashes
      = (if intCfg.useCmp then List.replicate (generalmapInit intCfg 5).size 0 else []) := by
  have h := C8_init_rounds intCfg 5 (by norm_num) (by norm_num)
  exact ⟨h.1, h.2.1, h.2.2.1 3 (by decide), h.2.2.2.1, h.2.2.2.2.1,
    h.2.2.2.2.2.1, h.2.2.2.2.2.2⟩

/-- Claim C9 (confirmed): for every table with capacity at least 1 and an
in-range start slot, `Find` returns a valid index in `[0, capacity)`; its
probe order is exactly the linear forward scan from the start slot with
wraparound at the capacity boundary (`range' hash (size - hash)` then
`range hash`); it stops at the first slot that is empty or matches; and
after a full fruitless sweep it returns the original start index.  (In
this embedding `Find` is a total function of the table, so it terminates
and cannot mutate the table.) -/
theorem C9_find_safe {K V : Type} [DecidableEq K] (cfg : MapCfg K V)
    (m : generalmap K V) (key : K) (hash : Nat)
    (hpos : 0 < m.size) (hh : hash < m.size) :
    generalmapFind cfg m key hash < m.size ∧
    probeSeq m.size hash = List.range' hash (m.size - hash) ++ List.range hash ∧
    (∀ i, stopCond cfg m key hash i
      = ((m.values.getD i none).isNone || generalmapIsMatch cfg m i key hash)) ∧
    (∀ r, (probeSeq m.size hash).find? (stopCond cfg m key hash) = some r →
      generalmapFind cfg m key hash = r) ∧
    ((probeSeq m.size hash).find? (stopCond cfg m key hash) = none →
      generalmapFind cfg m key hash = hash) := by
  refine ⟨?_, rfl, fun i => rfl, ?_, ?_⟩
  · unfold generalmapFind
    rcases hf : (probeSeq m.size hash).find? (stopCond cfg m key hash) with _ | r
    · exact hh
    · exact mem_probeSeq_lt (le_of_lt hh) (List.mem_of_find?_eq_some hf)
  · intro r hr
    unfold generalmapFind
    rw [hr]
  · intro hnone
    unfold generalmapFind
    rw [hnone]

/-- Claim C9 witness at a concrete instance: on a fresh table of capacity
2, probing for key 1 from start slot 1 stops at the empty slot 1, a valid
index. -/
theorem C9_witness :
    generalmapFind intCfg (generalmapInit intCfg 2) 1 1
      < (generalmapInit intCfg 2).size ∧
    stopCond intCfg (generalmapInit intCfg 2) 1 1 0
      = (((generalmapInit intCfg 2).values.getD 0 none).isNone
        || generalmapIsMatch intCfg (generalmapInit intCfg 2) 0 1 1) ∧
    generalmapFind intCfg (generalmapInit intCfg 2) 1 1 = 1 := by
  have h := C9_find_safe intCfg (generalmapInit intCfg 2) 1 1 (by decide) (by decide)
  exact ⟨h.1, h.2.2.1 0, h.2.2.2.1 1 (by decide)⟩

/-- Claim C10 counterexample: after one `Add`, `Free` leaves `count = 1`
and `capacity = 4` - the bookkeeping fields are not zeroed (the C function
only nulls the three array pointers), so the freed table still reports
itself non-empty. -/
theorem C10_counterexample :
    (generalmapFree (intmapAdd 1 (intmapInit Nat 1 4) 5 (some 9)).2 false).elements
      = 1 ∧
    (generalmapFree (intmapAdd 1 (intmapInit Nat 1 4) 5 (some 9)).2 false).size = 4 ∧
    mapNull (generalmapFree (intmapAdd 1 (intmapInit Nat 1 4) 5 (some 9)).2 false)
      = false := by
  decide

/-- Claim C10 (amended: the bookkeeping fields are NOT zeroed): `Free`
releases the three arrays (their pointers are nulled, modelled as the
buffers becoming empty) while `capacity` and `count` keep their old
values, and `Free` is idempotent - calling it again on the already-freed
(or an already-empty) table changes nothing, since `free(NULL)` is a
no-op. -/
theorem C10_free_arrays {K V : Type} (m : generalmap K V) (b b' : Bool) :
    (generalmapFree m b).keysStr = [] ∧
    (generalmapFree m b).hashes = [] ∧
    (generalmapFree m b).values = [] ∧
    (generalmapFree m b).size = m.size ∧
    (generalmapFree m b).elements = m.elements ∧
    generalmapFree (generalmapFree m b) b' = generalmapFree m b :=
  ⟨rfl, rfl, rfl, rfl, rfl, rfl⟩
